import Mathlib

/-!
Shallow embedding of the komari-vi relay core (realm workspace) and proofs
about its specification claims.

Machine integers are modelled as `Nat` with explicit wrapping (`% 2^w`) or
saturation (`min _ (2^w - 1)`) where the source uses wrapping or saturating
arithmetic.  The monotonic clock (`Instant` / `now_ms`) is modelled by passing
the current time in milliseconds as an explicit argument.
-/

/-- 2^32, the modulus of `u32`. -/
def U32 : Nat := 4294967296

/-- 2^64, the modulus of `u64`. -/
def U64 : Nat := 18446744073709551616

/-- `u64::saturating_add`. -/
def satAdd64 (a b : Nat) : Nat := min (a + b) (U64 - 1)

/-- `u64::saturating_mul`. -/
def satMul64 (a b : Nat) : Nat := min (a * b) (U64 - 1)

/-- `u32::saturating_add`. -/
def satAdd32 (a b : Nat) : Nat := min (a + b) (U32 - 1)

/-- `u64::saturating_sub` (on `Nat` ordinary subtraction is already truncated). -/
def satSub64 (a b : Nat) : Nat := a - b

/-!
## `realm_core/src/tcp/health.rs`

`PeerHealth` has three atomic fields; all accesses in the source are
`Ordering::Relaxed` loads/stores of whole fields, so a record of `Nat`s with
explicit state passing is a faithful sequential model.
-/

/-- Per-peer circuit-breaker state (`struct PeerHealth`). -/
structure PeerHealth where
  down_until_ms : Nat
  last_ok_ms : Nat
  fail_count : Nat
  deriving DecidableEq, Repr

/-- Snapshot returned by `peer_snapshot` (`struct FailoverPeerSnapshot`). -/
structure FailoverPeerSnapshot where
  down_until_ms : Nat
  last_ok_ms : Nat
  fail_count : Nat
  should_skip : Bool
  ok_recent : Bool
  deriving DecidableEq, Repr

/-- Per-endpoint failover health state (`struct FailoverHealth`).  The
`start : Instant` field is modelled implicitly: every operation takes `now`,
the elapsed milliseconds since creation, as an argument. -/
structure FailoverHealth where
  peers : List PeerHealth
  ok_ttl_ms : Nat
  backoff_base_ms : Nat
  backoff_max_ms : Nat
  deriving DecidableEq, Repr

/-- `FailoverHealth::new`. -/
def FailoverHealth.new (peer_count ok_ttl_ms backoff_base_ms backoff_max_ms : Nat) :
    FailoverHealth :=
  { peers := List.replicate peer_count ⟨0, 0, 0⟩
    ok_ttl_ms := ok_ttl_ms
    backoff_base_ms := backoff_base_ms
    backoff_max_ms := backoff_max_ms }

/-- `FailoverHealth::should_skip`: `now < down_until_ms[i]`, out-of-range
index yields `false`. -/
def FailoverHealth.should_skip (h : FailoverHealth) (now : Nat) (idx : Nat) : Bool :=
  match h.peers[idx]? with
  | none => false
  | some peer => decide (now < peer.down_until_ms)

/-- `FailoverHealth::is_recent_ok`: `last_ok != 0 && now.saturating_sub(last_ok) <= ok_ttl`. -/
def FailoverHealth.is_recent_ok (h : FailoverHealth) (now : Nat) (idx : Nat) : Bool :=
  match h.peers[idx]? with
  | none => false
  | some peer =>
    decide (peer.last_ok_ms ≠ 0 ∧ satSub64 now peer.last_ok_ms ≤ h.ok_ttl_ms)

/-- `FailoverHealth::mark_ok`. -/
def FailoverHealth.mark_ok (h : FailoverHealth) (now : Nat) (idx : Nat) : FailoverHealth :=
  match h.peers[idx]? with
  | none => h
  | some _ =>
    { h with peers := h.peers.set idx ⟨0, now, 0⟩ }

/-- `FailoverHealth::mark_fail`.  `fetch_add(1)` stores the wrapped `old+1`
and returns `old`; the local `fail_count` is `old.saturating_add(1)`; the
exponent is capped at 16; the backoff is a saturating multiply clamped by
`backoff_max_ms`; `down_until_ms` is a saturating add. -/
def FailoverHealth.mark_fail (h : FailoverHealth) (now : Nat) (idx : Nat) : FailoverHealth :=
  match h.peers[idx]? with
  | none => h
  | some peer =>
    let stored_fc := (peer.fail_count + 1) % U32
    let fail_count := satAdd32 peer.fail_count 1
    let exp := min fail_count 16
    let backoff0 := satMul64 h.backoff_base_ms (2 ^ exp)
    let backoff := if backoff0 > h.backoff_max_ms then h.backoff_max_ms else backoff0
    { h with peers := h.peers.set idx ⟨satAdd64 now backoff, 0, stored_fc⟩ }

/-- `FailoverHealth::peer_snapshot`. -/
def FailoverHealth.peer_snapshot (h : FailoverHealth) (now : Nat) (idx : Nat) :
    Option FailoverPeerSnapshot :=
  match h.peers[idx]? with
  | none => none
  | some peer =>
    some { down_until_ms := peer.down_until_ms
           last_ok_ms := peer.last_ok_ms
           fail_count := peer.fail_count
           should_skip := decide (now < peer.down_until_ms)
           ok_recent := decide (peer.last_ok_ms ≠ 0 ∧
             satSub64 now peer.last_ok_ms ≤ h.ok_ttl_ms) }

/-- `FailoverHealth::peer_count`. -/
def FailoverHealth.peer_count (h : FailoverHealth) : Nat := h.peers.length

/-!
## Health event traces

For claims about reachable `FailoverHealth` states, a state is the result of
folding a list of mark events (issued by connection tasks and the prober)
over an initial state.  The time argument of each event is the value of
`now_ms()` at that call.
-/

/-- A mark event against the health state. -/
inductive HealthEvent where
  | ok (idx t : Nat)
  | fail (idx t : Nat)
  deriving DecidableEq, Repr

/-- Peer index an event refers to. -/
def HealthEvent.idx : HealthEvent → Nat
  | .ok i _ => i
  | .fail i _ => i

/-- Apply one event. -/
def applyEvent (h : FailoverHealth) : HealthEvent → FailoverHealth
  | .ok i t => h.mark_ok t i
  | .fail i t => h.mark_fail t i

/-- Run a list of events in order. -/
def runEvents (h : FailoverHealth) (es : List HealthEvent) : FailoverHealth :=
  es.foldl applyEvent h

/-- Iterated `mark_fail` against one peer, at the given call times. -/
def mark_fail_seq (h : FailoverHealth) (idx : Nat) (ts : List Nat) : FailoverHealth :=
  ts.foldl (fun s t => s.mark_fail t idx) h

theorem mark_ok_peers_length (h : FailoverHealth) (now idx : Nat) :
    (h.mark_ok now idx).peers.length = h.peers.length := by
  unfold FailoverHealth.mark_ok
  cases hg : h.peers[idx]? <;> simp

theorem mark_fail_peers_length (h : FailoverHealth) (now idx : Nat) :
    (h.mark_fail now idx).peers.length = h.peers.length := by
  unfold FailoverHealth.mark_fail
  cases hg : h.peers[idx]? <;> simp

theorem applyEvent_peers_length (h : FailoverHealth) (e : HealthEvent) :
    (applyEvent h e).peers.length = h.peers.length := by
  cases e <;> simp [applyEvent, mark_ok_peers_length, mark_fail_peers_length]

theorem applyEvent_ok_ttl (h : FailoverHealth) (e : HealthEvent) :
    (applyEvent h e).ok_ttl_ms = h.ok_ttl_ms := by
  cases e with
  | ok i t =>
    simp only [applyEvent]
    unfold FailoverHealth.mark_ok
    cases hg : h.peers[i]? <;> simp
  | fail i t =>
    simp only [applyEvent]
    unfold FailoverHealth.mark_fail
    cases hg : h.peers[i]? <;> simp

theorem applyEvent_other_peer (h : FailoverHealth) (e : HealthEvent) (i : Nat)
    (hne : e.idx ≠ i) : (applyEvent h e).peers[i]? = h.peers[i]? := by
  cases e with
  | ok j t =>
    simp only [HealthEvent.idx] at hne
    simp only [applyEvent]
    unfold FailoverHealth.mark_ok
    cases hg : h.peers[j]? <;> simp [List.getElem?_set_ne hne]
  | fail j t =>
    simp only [HealthEvent.idx] at hne
    simp only [applyEvent]
    unfold FailoverHealth.mark_fail
    cases hg : h.peers[j]? <;> simp [List.getElem?_set_ne hne]

theorem runEvents_other_peers (h : FailoverHealth) (es : List HealthEvent) (i : Nat)
    (hne : ∀ e ∈ es, e.idx ≠ i) :
    (runEvents h es).peers[i]? = h.peers[i]? ∧ (runEvents h es).ok_ttl_ms = h.ok_ttl_ms := by
  induction es generalizing h with
  | nil => exact ⟨rfl, rfl⟩
  | cons e es ih =>
    have h1 := applyEvent_other_peer h e i (hne e (by simp))
    have h2 := applyEvent_ok_ttl h e
    have := ih (applyEvent h e) (fun x hx => hne x (by simp [hx]))
    exact ⟨this.1.trans h1, this.2.trans h2⟩

theorem mark_ok_self (h : FailoverHealth) (now idx : Nat) (hidx : idx < h.peers.length) :
    (h.mark_ok now idx).peers[idx]? = some ⟨0, now, 0⟩ := by
  unfold FailoverHealth.mark_ok
  have : ∃ pk, h.peers[idx]? = some pk := ⟨h.peers[idx], List.getElem?_eq_getElem hidx⟩
  obtain ⟨pk, hpk⟩ := this
  simp [hpk, List.getElem?_set_self (by simpa using hidx)]

theorem min_sat32_exp (fc : Nat) : min (satAdd32 fc 1) 16 = min (fc + 1) 16 := by
  unfold satAdd32 U32
  omega

theorem backoff_clamp_eq (base exp maxv : Nat) (hmax : maxv < U64) :
    (if satMul64 base (2 ^ exp) > maxv then maxv else satMul64 base (2 ^ exp)) =
      min (base * 2 ^ exp) maxv := by
  unfold satMul64
  split_ifs <;> unfold U64 at * <;> omega

theorem mark_fail_self (h : FailoverHealth) (now idx : Nat) (pk : PeerHealth)
    (hpk : h.peers[idx]? = some pk) (hmax : h.backoff_max_ms < U64) :
    (h.mark_fail now idx).peers[idx]? =
      some ⟨satAdd64 now (min (h.backoff_base_ms * 2 ^ min (pk.fail_count + 1) 16)
              h.backoff_max_ms),
            0, (pk.fail_count + 1) % U32⟩ := by
  have hidx : idx < h.peers.length := by
    by_contra hc
    rw [List.getElem?_eq_none (by omega)] at hpk
    exact absurd hpk (by simp)
  unfold FailoverHealth.mark_fail
  rw [hpk]
  simp only
  rw [min_sat32_exp, backoff_clamp_eq _ _ _ hmax]
  simp [List.getElem?_set_self (by simpa using hidx)]

theorem mark_fail_keeps_opts (h : FailoverHealth) (now idx : Nat) :
    (h.mark_fail now idx).backoff_base_ms = h.backoff_base_ms ∧
      (h.mark_fail now idx).backoff_max_ms = h.backoff_max_ms := by
  unfold FailoverHealth.mark_fail
  cases hg : h.peers[idx]? <;> simp

theorem mark_fail_seq_snoc_spec (h : FailoverHealth) (idx : Nat) (ts : List Nat)
    (t0 : Nat) (pk : PeerHealth) (j : Nat)
    (hpk : h.peers[idx]? = some pk) (hfc : pk.fail_count = j)
    (hlen : j + ts.length + 1 < U32) (hmax : h.backoff_max_ms < U64) :
    (mark_fail_seq h idx (ts ++ [t0])).peers[idx]? =
      some ⟨satAdd64 t0 (min (h.backoff_base_ms * 2 ^ min (j + ts.length + 1) 16)
              h.backoff_max_ms),
            0, j + ts.length + 1⟩ := by
  induction ts generalizing h pk j with
  | nil =>
    have := mark_fail_self h t0 idx pk hpk hmax
    simp only [mark_fail_seq, List.nil_append, List.foldl_cons, List.foldl_nil]
    rw [this, hfc]
    have : (j + 1) % U32 = j + 1 := Nat.mod_eq_of_lt (by omega)
    simp [this]
  | cons t ts ih =>
    have step := mark_fail_self h t idx pk hpk hmax
    have hwrap : (pk.fail_count + 1) % U32 = j + 1 := by
      rw [hfc]; exact Nat.mod_eq_of_lt (by omega)
    rw [hwrap] at step
    have hopts := mark_fail_keeps_opts h t idx
    have hlen2 : j + 1 + ts.length + 1 < U32 := by
      simp only [List.length_cons] at hlen
      omega
    have := ih (h.mark_fail t idx) _ (j + 1) step rfl hlen2 (by rw [hopts.2]; exact hmax)
    simp only [mark_fail_seq, List.cons_append, List.foldl_cons] at this ⊢
    rw [this, hopts.1, hopts.2]
    have heq : j + 1 + ts.length + 1 = j + (ts.length + 1) + 1 := by omega
    simp [heq]

/-- C1, counterexample.  After 16 consecutive `mark_fail(0)` the stored
`fail_count` is 16; the 17th call stores 17, not `min(16+1, 16) = 16`:
the source caps only the backoff exponent, the stored counter is the
uncapped (wrapping) `old + 1`. -/
theorem C1_counterexample :
    (mark_fail_seq (FailoverHealth.new 1 6000 500 30000) 0
        (List.replicate 16 0)).peers[0]?.map PeerHealth.fail_count = some 16 ∧
    (mark_fail_seq (FailoverHealth.new 1 6000 500 30000) 0
        (List.replicate 17 0)).peers[0]?.map PeerHealth.fail_count = some 17 ∧
    ¬ (17 = min (16 + 1) 16) := by
  refine ⟨by decide, by decide, by decide⟩

/-- C1, amended.  `mark_fail(i)` on a valid peer sets `last_ok_ms` to 0,
stores `old_fail_count + 1` (wrapping at 2^32, NOT capped at 16), and sets
`down_until_ms` to the saturating sum of `now` and
`min(backoff_base · 2^min(old_fail_count + 1, 16), backoff_max)`; for every
sequence of `k ≥ 1` consecutive `mark_fail(i)` starting from `fail_count = 0`
with no intervening `mark_ok(i)` (and `k < 2^32`), the backoff written at
call `k` is `min(backoff_base · 2^min(k, 16), backoff_max)`. -/
theorem C1_mark_fail_amended (h : FailoverHealth) (idx : Nat) (pk : PeerHealth)
    (hmax : h.backoff_max_ms < U64) (hpk : h.peers[idx]? = some pk) :
    (∀ now, (h.mark_fail now idx).peers[idx]? =
      some ⟨satAdd64 now (min (h.backoff_base_ms * 2 ^ min (pk.fail_count + 1) 16)
              h.backoff_max_ms),
            0, (pk.fail_count + 1) % U32⟩) ∧
    (∀ ts t0, pk.fail_count = 0 → ts.length + 1 < U32 →
      (mark_fail_seq h idx (ts ++ [t0])).peers[idx]? =
        some ⟨satAdd64 t0 (min (h.backoff_base_ms * 2 ^ min (ts.length + 1) 16)
                h.backoff_max_ms),
              0, ts.length + 1⟩) := by
  constructor
  · intro now
    exact mark_fail_self h now idx pk hpk hmax
  · intro ts t0 hfc hlen
    have := mark_fail_seq_snoc_spec h idx ts t0 pk 0 hpk hfc (by omega) hmax
    simpa using this

/-- Witness for `C1_mark_fail_amended` at a concrete state. -/
theorem C1_mark_fail_amended_witness :
    (FailoverHealth.new 1 6000 500 30000).peers[0]? = some ⟨0, 0, 0⟩ ∧
    ((FailoverHealth.new 1 6000 500 30000).mark_fail 7 0).peers[0]? =
      some ⟨satAdd64 7 (min (500 * 2 ^ min (0 + 1) 16) 30000), 0, (0 + 1) % U32⟩ := by
  refine ⟨by decide, ?_⟩
  exact (C1_mark_fail_amended (FailoverHealth.new 1 6000 500 30000) 0 ⟨0, 0, 0⟩
    (by decide) (by decide)).1 7

/-- C2, counterexample.  A `mark_ok(0)` issued in the very first millisecond
of the health object's life (`now_ms() = 0`) stores `last_ok_ms = 0`, which
is also the "never succeeded" sentinel, so a query at the same instant
(trivially within `ok_ttl_ms`) reports `is_recent_ok = false`, contradicting
the claim that it must be `true`. -/
theorem C2_counterexample :
    satSub64 0 0 ≤ (FailoverHealth.new 1 6000 500 30000).ok_ttl_ms ∧
    (runEvents (FailoverHealth.new 1 6000 500 30000) [.ok 0 0]).is_recent_ok 0 0 = false := by
  refine ⟨by decide, by decide⟩

/-- C2, amended.  For a valid peer index `i`, if `mark_ok(i)` was the most
recent mark event for `i` and was issued at a nonzero `now_ms()` timestamp
`t0`, then any query within `ok_ttl_ms` of `t0` sees `is_recent_ok(i) = true`
and `should_skip(i) = false`.  (The original claim fails only when the
`mark_ok` lands at timestamp 0, which collides with the never-succeeded
sentinel of `last_ok_ms`.) -/
theorem C2_recent_ok_amended (h0 : FailoverHealth) (pre post : List HealthEvent)
    (i t0 now : Nat) (hvalid : i < (runEvents h0 pre).peers.length)
    (ht0 : t0 ≠ 0) (hpost : ∀ e ∈ post, e.idx ≠ i)
    (hwithin : satSub64 now t0 ≤ (runEvents h0 (pre ++ HealthEvent.ok i t0 :: post)).ok_ttl_ms) :
    (runEvents h0 (pre ++ HealthEvent.ok i t0 :: post)).is_recent_ok now i = true ∧
    (runEvents h0 (pre ++ HealthEvent.ok i t0 :: post)).should_skip now i = false := by
  have hsplit : runEvents h0 (pre ++ HealthEvent.ok i t0 :: post) =
      runEvents (applyEvent (runEvents h0 pre) (HealthEvent.ok i t0)) post := by
    simp [runEvents, List.foldl_append]
  have hmark : (applyEvent (runEvents h0 pre) (HealthEvent.ok i t0)).peers[i]? =
      some ⟨0, t0, 0⟩ := mark_ok_self (runEvents h0 pre) t0 i hvalid
  have hrest := runEvents_other_peers (applyEvent (runEvents h0 pre) (HealthEvent.ok i t0))
    post i hpost
  have hpeer : (runEvents h0 (pre ++ HealthEvent.ok i t0 :: post)).peers[i]? =
      some ⟨0, t0, 0⟩ := by
    rw [hsplit, hrest.1, hmark]
  rw [hsplit] at hwithin ⊢
  constructor
  · unfold FailoverHealth.is_recent_ok
    rw [hsplit] at hpeer
    rw [hpeer]
    simp only [decide_eq_true_eq]
    exact ⟨ht0, hwithin⟩
  · unfold FailoverHealth.should_skip
    rw [hsplit] at hpeer
    rw [hpeer]
    simp

/-- Witness for `C2_recent_ok_amended` on a concrete trace: two peers, a
failure on peer 1 after the `mark_ok(0)`, queried 5 ms later. -/
theorem C2_recent_ok_amended_witness :
    (runEvents (FailoverHealth.new 2 6000 500 30000)
        ([.fail 0 1] ++ HealthEvent.ok 0 3 :: [.fail 1 4])).is_recent_ok 8 0 = true ∧
    (runEvents (FailoverHealth.new 2 6000 500 30000)
        ([.fail 0 1] ++ HealthEvent.ok 0 3 :: [.fail 1 4])).should_skip 8 0 = false := by
  exact C2_recent_ok_amended (FailoverHealth.new 2 6000 500 30000)
    [.fail 0 1] [.fail 1 4] 0 3 8 (by decide) (by decide)
    (by intro e he; simp at he; subst he; decide) (by decide)

/-- C10, confirmed.  Every `FailoverHealth` operation is total in the peer
index (the Lean model is a total function, as the source handles the lookup
with `let ... else return`), and for an index at or beyond `peer_count`:
`should_skip` is `false`, `is_recent_ok` is `false`, `peer_snapshot` is
`None`, and `mark_ok` / `mark_fail` leave the whole state unchanged. -/
theorem C10_out_of_range_total (h : FailoverHealth) (now idx : Nat)
    (hidx : h.peer_count ≤ idx) :
    h.should_skip now idx = false ∧
    h.is_recent_ok now idx = false ∧
    h.peer_snapshot now idx = none ∧
    h.mark_ok now idx = h ∧
    h.mark_fail now idx = h := by
  have hnone : h.peers[idx]? = none := List.getElem?_eq_none hidx
  refine ⟨?_, ?_, ?_, ?_, ?_⟩
  · unfold FailoverHealth.should_skip
    rw [hnone]
  · unfold FailoverHealth.is_recent_ok
    rw [hnone]
  · unfold FailoverHealth.peer_snapshot
    rw [hnone]
  · unfold FailoverHealth.mark_ok
    rw [hnone]
  · unfold FailoverHealth.mark_fail
    rw [hnone]

/-- Witness for `C10_out_of_range_total` at index 5 of a 1-peer state. -/
theorem C10_out_of_range_total_witness :
    (FailoverHealth.new 1 6000 500 30000).should_skip 9 5 = false ∧
    (FailoverHealth.new 1 6000 500 30000).is_recent_ok 9 5 = false ∧
    (FailoverHealth.new 1 6000 500 30000).peer_snapshot 9 5 = none ∧
    (FailoverHealth.new 1 6000 500 30000).mark_ok 9 5 = FailoverHealth.new 1 6000 500 30000 ∧
    (FailoverHealth.new 1 6000 500 30000).mark_fail 9 5 = FailoverHealth.new 1 6000 500 30000 :=
  C10_out_of_range_total (FailoverHealth.new 1 6000 500 30000) 9 5 (by decide)

/-!
## `realm_core/src/endpoint.rs`: `FailoverOpts` and `sanitize`
-/

/-- `u64::clamp(min, max)` for `min <= max`. -/
def rustClamp (v lo hi : Nat) : Nat := if v < lo then lo else if v > hi then hi else v

/-- Inner helper `clamp_nonzero` of `FailoverOpts::sanitize`. -/
def clamp_nonzero (v lo hi : Nat) : Nat := if v = 0 then v else rustClamp v lo hi

/-- Failover-specific options (`struct FailoverOpts`), all milliseconds. -/
structure FailoverOpts where
  probe_interval_ms : Nat
  probe_timeout_ms : Nat
  failfast_timeout_ms : Nat
  ok_ttl_ms : Nat
  backoff_base_ms : Nat
  backoff_max_ms : Nat
  retry_window_ms : Nat
  retry_sleep_ms : Nat
  deriving DecidableEq, Repr

/-- `FailoverOpts::default`. -/
def FailoverOpts.default : FailoverOpts :=
  ⟨2000, 200, 250, 6000, 500, 30000, 0, 200⟩

/-- `FailoverOpts::sanitize` (the source mutates fields in place; the model
returns the updated record, with the sequential assignments inlined: the
`backoff_max_ms` update reads the already-clamped `backoff_base_ms` and
`backoff_max_ms`, and the `retry_sleep_ms` clamp reads the already-bounded
`retry_window_ms`). -/
def FailoverOpts.sanitize (o : FailoverOpts) : FailoverOpts where
  probe_interval_ms := clamp_nonzero o.probe_interval_ms 200 60000
  probe_timeout_ms := clamp_nonzero o.probe_timeout_ms 50 10000
  failfast_timeout_ms := clamp_nonzero o.failfast_timeout_ms 50 10000
  ok_ttl_ms := clamp_nonzero o.ok_ttl_ms 200 120000
  backoff_base_ms := clamp_nonzero o.backoff_base_ms 50 10000
  backoff_max_ms :=
    if clamp_nonzero o.backoff_max_ms 100 600000 > 0 ∧
        clamp_nonzero o.backoff_base_ms 50 10000 > 0 then
      max (clamp_nonzero o.backoff_max_ms 100 600000) (clamp_nonzero o.backoff_base_ms 50 10000)
    else clamp_nonzero o.backoff_max_ms 100 600000
  retry_window_ms := min o.retry_window_ms 600000
  retry_sleep_ms :=
    if min o.retry_window_ms 600000 > 0 then rustClamp o.retry_sleep_ms 10 10000
    else o.retry_sleep_ms

theorem clamp_nonzero_idem (v lo hi : Nat) (hlo : 0 < lo) (hle : lo ≤ hi) :
    clamp_nonzero (clamp_nonzero v lo hi) lo hi = clamp_nonzero v lo hi := by
  unfold clamp_nonzero rustClamp
  split_ifs <;> omega

theorem clamp_nonzero_bounds (v lo hi : Nat) (hle : lo ≤ hi) :
    clamp_nonzero v lo hi = 0 ∨ (lo ≤ clamp_nonzero v lo hi ∧ clamp_nonzero v lo hi ≤ hi) := by
  unfold clamp_nonzero rustClamp
  split_ifs <;> omega

/-- C7, confirmed: `FailoverOpts::sanitize` is idempotent. -/
theorem C7_sanitize_idempotent (o : FailoverOpts) : o.sanitize.sanitize = o.sanitize := by
  obtain ⟨pi, pt, ff, ttl, bb, bm, rw, rs⟩ := o
  have hb := clamp_nonzero_bounds bb 50 10000 (by omega)
  have hm := clamp_nonzero_bounds bm 100 600000 (by omega)
  simp only [FailoverOpts.sanitize, FailoverOpts.mk.injEq]
  refine ⟨?_, ?_, ?_, ?_, ?_, ?_, ?_, ?_⟩
  · exact clamp_nonzero_idem pi 200 60000 (by omega) (by omega)
  · exact clamp_nonzero_idem pt 50 10000 (by omega) (by omega)
  · exact clamp_nonzero_idem ff 50 10000 (by omega) (by omega)
  · exact clamp_nonzero_idem ttl 200 120000 (by omega) (by omega)
  · exact clamp_nonzero_idem bb 50 10000 (by omega) (by omega)
  · generalize clamp_nonzero bb 50 10000 = B at hb ⊢
    generalize clamp_nonzero bm 100 600000 = M at hm ⊢
    unfold clamp_nonzero rustClamp
    split_ifs <;> omega
  · omega
  · generalize hrw : min rw 600000 = W
    unfold rustClamp
    split_ifs <;> omega

/-!
## `realm_lb`: tokens, strategies, balancers (`balancer.rs`, `failover.rs`)

Strings are modelled as `List Char` (Rust `str` as a sequence of `char`s),
with the handful of `str` methods the source uses re-implemented by
structural recursion so that concrete evaluations kernel-reduce.
-/

/-- Result of Rust code that may panic. -/
inductive PanicOr (α : Type) where
  | panicked (msg : List Char)
  | value (a : α)
  deriving DecidableEq, Repr

/-- `char::is_whitespace` (the Unicode White_Space property). -/
def rustIsWhitespace (c : Char) : Bool :=
  c.toNat = 0x20 ∨ c.toNat = 0x9 ∨ c.toNat = 0xA ∨ c.toNat = 0xB ∨ c.toNat = 0xC ∨
  c.toNat = 0xD ∨ c.toNat = 0x85 ∨ c.toNat = 0xA0 ∨ c.toNat = 0x1680 ∨
  (0x2000 ≤ c.toNat ∧ c.toNat ≤ 0x200A) ∨ c.toNat = 0x2028 ∨ c.toNat = 0x2029 ∨
  c.toNat = 0x202F ∨ c.toNat = 0x205F ∨ c.toNat = 0x3000

/-- `str::trim`: drop leading and trailing whitespace. -/
def trimChars (s : List Char) : List Char :=
  ((s.dropWhile rustIsWhitespace).reverse.dropWhile rustIsWhitespace).reverse

/-- `str::split_once(':')`: split at the first colon, if any. -/
def splitOnceColon : List Char → Option (List Char × List Char)
  | [] => none
  | c :: rest =>
    if c = ':' then some ([], rest)
    else (splitOnceColon rest).map (fun p => (c :: p.1, p.2))

/-- `str::split(',')`: split at every comma (empty pieces preserved). -/
def splitComma : List Char → List (List Char)
  | [] => [[]]
  | c :: rest =>
    if c = ',' then [] :: splitComma rest
    else
      match splitComma rest with
      | [] => [[c]]
      | p :: ps => (c :: p) :: ps

/-- Digits-only `Nat` parse helper for `str::parse::<u8>`. -/
def digitsToNat : List Char → Option Nat
  | [] => some 0
  | c :: rest =>
    if '0' ≤ c ∧ c ≤ '9' then
      (digitsToNat rest).map (fun n => n * 10 ^ rest.length + (c.toNat - '0'.toNat))
    else none

/-- `str::parse::<u8>`: all digits, nonempty, value at most 255 (a leading
`+` is accepted by Rust; the sources only feed trimmed weight tokens). -/
def parseU8 (s : List Char) : Option Nat :=
  if s = [] then none
  else
    match digitsToNat s with
    | none => none
    | some n => if n ≤ 255 then some n else none

/-- `char::to_ascii_lowercase` mapped over a string. -/
def asciiLower (s : List Char) : List Char :=
  s.map (fun c => if 'A' ≤ c ∧ c ≤ 'Z' then Char.ofNat (c.toNat + 32) else c)

/-- `struct Token(pub u8)` of `realm_lb` (declared in the crate root, which
is not under `src/`; its shape is fixed by every use site in
`balancer.rs` / `middle.rs`). -/
structure Token where
  idx : Nat
  deriving DecidableEq, Repr

/-- `enum Strategy`. -/
inductive Strategy where
  | off
  | failover
  | iphash
  | roundrobin
  deriving DecidableEq, Repr

/-- `impl From<&str> for Strategy`: the four known names, otherwise
`panic!("unknown strategy: ...")`. -/
def Strategy.fromStr (s : List Char) : PanicOr Strategy :=
  if s = "off".data then .value .off
  else if s = "failover".data then .value .failover
  else if s = "iphash".data then .value .iphash
  else if s = "roundrobin".data then .value .roundrobin
  else .panicked ("unknown strategy: ".data ++ s)

/-- `struct Failover` (`failover.rs`): only the peer total. -/
structure Failover where
  total : Nat
  deriving DecidableEq, Repr

/-- `Failover::new`: `total = weights.len()` (the source asserts
`weights.len() <= u8::MAX`). -/
def Failover.new (weights : List Nat) : Failover := ⟨weights.length⟩

/-- `Failover::order`: `(0..total).map(Token)`. -/
def Failover.order (f : Failover) : List Token := (List.range f.total).map Token.mk

/-- `enum Balancer`.  The `IpHash` and `RoundRobin` payloads
(`ip_hash.rs` / `round_robin.rs` are not under `src/`) are modelled from the
spec as their weight vectors; their stateful selection is abstracted by the
`sel` argument of `candidates`. -/
inductive Balancer where
  | off
  | failover (f : Failover)
  | iphash (weights : List Nat)
  | roundrobin (weights : List Nat)
  deriving DecidableEq, Repr

/-- `Balancer::new`. -/
def Balancer.new (strategy : Strategy) (weights : List Nat) : Balancer :=
  match strategy with
  | .off => .off
  | .failover => .failover (Failover.new weights)
  | .iphash => .iphash weights
  | .roundrobin => .roundrobin weights

/-- `Balancer::strategy`. -/
def Balancer.strategy : Balancer → Strategy
  | .off => .off
  | .failover _ => .failover
  | .iphash _ => .iphash
  | .roundrobin _ => .roundrobin

/-- `Balancer::candidates`.  Modelled from the spec for the `IpHash` /
`RoundRobin` arms (their `next` implementations are not under `src/`):
`sel` stands for `self.next(ctx)`, the single optional selected token of
the weighted-ring / shared-cursor strategies. -/
def Balancer.candidates (b : Balancer) (sel : Option Token) : List Token :=
  match b with
  | .off => [⟨0⟩]
  | .failover fo => if fo.total = 0 then [⟨0⟩] else fo.order
  | .iphash _ => sel.toList
  | .roundrobin _ => sel.toList

/-- `Balancer::parse_from_str` (panics on an unknown strategy name via
`Strategy::from`; weights that fail to parse are silently dropped by
`filter_map`). -/
def Balancer.parse_from_str (s : List Char) : PanicOr Balancer :=
  match splitOnceColon s with
  | none => .value .off
  | some (strat, weights) =>
    match Strategy.fromStr (trimChars strat) with
    | .panicked m => .panicked m
    | .value strategy =>
      .value (Balancer.new strategy
        ((splitComma (trimChars weights)).filterMap (fun w => parseU8 (trimChars w))))

/-- `Balancer::try_parse_from_str` (returns `Err` for a missing colon or a
bad weight, but still panics on an unknown strategy name via
`Strategy::from`). -/
def Balancer.try_parse_from_str (s : List Char) : PanicOr (Except (List Char) Balancer) :=
  match splitOnceColon s with
  | none => .value (.error "invalid format".data)
  | some (strat, weights) =>
    match Strategy.fromStr (trimChars strat) with
    | .panicked m => .panicked m
    | .value strategy =>
      let pieces := ((splitComma (trimChars weights)).map trimChars).filter (fun w => w ≠ [])
      if pieces.all (fun w => (parseU8 w).isSome) then
        .value (.ok (Balancer.new strategy (pieces.filterMap parseU8)))
      else
        .value (.error "invalid weight".data)

/-!
## `src/conf/endpoint.rs`: `EndpointBuildError` and `try_build_balancer`
-/

/-- `enum EndpointBuildError`. -/
inductive EndpointBuildError where
  | invalidListen (msg : List Char)
  | invalidRemote (msg : List Char)
  | invalidThrough (msg : List Char)
  | invalidBalance (msg : List Char)
  | noTransportEnabled
  deriving DecidableEq, Repr

/-- Weight-list parsing of `try_build_balancer`: split the right-hand side at
commas, trim, drop empty pieces, and require every remaining piece to parse
as `u8`. -/
def parseWeightsStrict (weights : List Char) : Except EndpointBuildError (List Nat) :=
  let pieces := ((splitComma (trimChars weights)).map trimChars).filter (fun w => w ≠ [])
  if pieces.all (fun w => (parseU8 w).isSome) then
    .ok (pieces.filterMap parseU8)
  else
    .error (.invalidBalance "invalid weight".data)

/-- `EndpointConf::try_build_balancer`, as a function of the two fields it
reads: `balance` and `extra_remotes.len()`.  Unknown strategy names return
`InvalidBalance`; failover weight counts and the primary-weight dominance
rule are enforced. -/
def try_build_balancer (balance : Option (List Char)) (extra_remotes_len : Nat) :
    Except EndpointBuildError Balancer :=
  match balance with
  | none => .ok .off
  | some s =>
    let p := match splitOnceColon s with
      | some q => q
      | none => (s, [])
    let name := asciiLower (trimChars p.1)
    let strategyRes : Except EndpointBuildError Strategy :=
      if name = "off".data then .ok .off
      else if name = "failover".data then .ok .failover
      else if name = "iphash".data then .ok .iphash
      else if name = "roundrobin".data then .ok .roundrobin
      else .error (.invalidBalance ("unknown strategy: ".data ++ name))
    match strategyRes with
    | .error e => .error e
    | .ok strategy =>
      match parseWeightsStrict p.2 with
      | .error e => .error e
      | .ok parsed0 =>
        if strategy = .failover then
          let expected := 1 + extra_remotes_len
          if parsed0 = [] then
            .ok (Balancer.new strategy (List.replicate expected 1))
          else if parsed0.length ≠ expected then
            .error (.invalidBalance "failover weight count mismatch".data)
          else if parsed0.headD 0 < (parsed0.drop 1).foldr max 0 then
            .error (.invalidBalance "failover requires the highest primary weight".data)
          else
            .ok (Balancer.new strategy parsed0)
        else
          .ok (Balancer.new strategy parsed0)

/-- Strategy-name normalisation used by `try_build_balancer` on a balance
string: text before the first colon (or the whole string), trimmed and
ASCII-lowercased. -/
def balanceStrategyName (s : List Char) : List Char :=
  match splitOnceColon s with
  | some q => asciiLower (trimChars q.1)
  | none => asciiLower (trimChars s)


instance {ε α : Type} [DecidableEq ε] [DecidableEq α] : DecidableEq (Except ε α) := fun x y =>
  match x, y with
  | .ok a, .ok b =>
    if h : a = b then .isTrue (by rw [h]) else .isFalse (by intro hc; cases hc; exact h rfl)
  | .error a, .error b =>
    if h : a = b then .isTrue (by rw [h]) else .isFalse (by intro hc; cases hc; exact h rfl)
  | .ok _, .error _ => .isFalse (by intro hc; cases hc)
  | .error _, .ok _ => .isFalse (by intro hc; cases hc)

theorem splitOnceColon_append (n w : List Char) (hcolon : ':' ∉ n) :
    splitOnceColon (n ++ ':' :: w) = some (n, w) := by
  induction n with
  | nil => simp [splitOnceColon]
  | cons c rest ih =>
    have hc : c ≠ ':' := by
      intro h
      exact hcolon (by simp [h])
    have hrest : ':' ∉ rest := fun h => hcolon (by simp [h])
    simp [splitOnceColon, hc, ih hrest]

theorem strategy_fromStr_unknown (n : List Char)
    (h1 : n ≠ "off".data) (h2 : n ≠ "failover".data)
    (h3 : n ≠ "iphash".data) (h4 : n ≠ "roundrobin".data) :
    Strategy.fromStr n = .panicked ("unknown strategy: ".data ++ n) := by
  unfold Strategy.fromStr
  rw [if_neg h1, if_neg h2, if_neg h3, if_neg h4]

/-- C5, counterexample.  The realm_lb parse surface panics on an unknown
strategy name: `Strategy::from` reaches `panic!("unknown strategy: ...")`,
so both `Balancer::parse_from_str` and `Balancer::try_parse_from_str` panic
instead of returning an error value, contradicting the claim for the library
parsing path. -/
theorem C5_counterexample :
    Strategy.fromStr "unknown".data = .panicked ("unknown strategy: ".data ++ "unknown".data) ∧
    Balancer.parse_from_str "unknown: 1".data =
      .panicked ("unknown strategy: ".data ++ "unknown".data) ∧
    Balancer.try_parse_from_str "unknown: 1".data =
      .panicked ("unknown strategy: ".data ++ "unknown".data) := by
  refine ⟨by decide, by decide, by decide⟩

/-- C5, amended.  Building a balancer through the configuration surface
(`EndpointConf::try_build_balancer`) returns an `InvalidBalance` error value
(never a panic) for every balance string whose strategy name is not one of
off/failover/iphash/roundrobin; the realm_lb string-parsing functions
(`Strategy::from`, `Balancer::parse_from_str`, `Balancer::try_parse_from_str`)
panic on such names. -/
theorem C5_unknown_strategy_amended (s : List Char) (extras : Nat) (n w : List Char)
    (hs : balanceStrategyName s ∉
      ["off".data, "failover".data, "iphash".data, "roundrobin".data])
    (hn : trimChars n ∉ ["off".data, "failover".data, "iphash".data, "roundrobin".data])
    (hcolon : ':' ∉ n) :
    try_build_balancer (some s) extras =
      .error (.invalidBalance ("unknown strategy: ".data ++ balanceStrategyName s)) ∧
    Strategy.fromStr (trimChars n) = .panicked ("unknown strategy: ".data ++ trimChars n) ∧
    Balancer.parse_from_str (n ++ ':' :: w) =
      .panicked ("unknown strategy: ".data ++ trimChars n) ∧
    Balancer.try_parse_from_str (n ++ ':' :: w) =
      .panicked ("unknown strategy: ".data ++ trimChars n) := by
  simp only [List.mem_cons, List.mem_singleton, not_or] at hs hn
  obtain ⟨hs1, hs2, hs3, hs4, _⟩ := hs
  obtain ⟨hn1, hn2, hn3, hn4, _⟩ := hn
  have hfrom := strategy_fromStr_unknown (trimChars n) hn1 hn2 hn3 hn4
  refine ⟨?_, hfrom, ?_, ?_⟩
  · unfold try_build_balancer
    cases hsp : splitOnceColon s with
    | none =>
      simp only [balanceStrategyName, hsp] at hs1 hs2 hs3 hs4 ⊢
      rw [if_neg hs1, if_neg hs2, if_neg hs3, if_neg hs4]
    | some q =>
      simp only [balanceStrategyName, hsp] at hs1 hs2 hs3 hs4 ⊢
      rw [if_neg hs1, if_neg hs2, if_neg hs3, if_neg hs4]
  · unfold Balancer.parse_from_str
    rw [splitOnceColon_append n w hcolon]
    simp only [hfrom]
  · unfold Balancer.try_parse_from_str
    rw [splitOnceColon_append n w hcolon]
    simp only [hfrom]

/-- Witness for `C5_unknown_strategy_amended` on the balance string
"unknown: 1,2,3". -/
theorem C5_unknown_strategy_amended_witness :
    try_build_balancer (some "unknown: 1,2,3".data) 2 =
      .error (.invalidBalance
        ("unknown strategy: ".data ++ balanceStrategyName "unknown: 1,2,3".data)) ∧
    Balancer.parse_from_str ("unknown".data ++ ':' :: " 1".data) =
      .panicked ("unknown strategy: ".data ++ trimChars "unknown".data) := by
  have h := C5_unknown_strategy_amended "unknown: 1,2,3".data 2 "unknown".data " 1".data
    (by decide) (by decide) (by decide)
  exact ⟨h.1, h.2.2.1⟩

/-!
## `realm_core/src/tcp/middle.rs`: token to candidate mapping

`α` abstracts `&RemoteAddr`; the per-connection task maps each balancer
token to an `(idx, address)` pair, skipping (with a warning log) tokens
whose extra index is out of range, and falls back to the primary when
nothing remains.
-/

/-- One arm of the token match in `connect_and_relay`: `Token(0)` is the
primary, `Token(idx)` with `idx > 0` is `extras[idx - 1]` (via
`saturating_sub`), or `None` (skip) when out of range. -/
def map_token {α : Type} (raddr0 : α) (extras : List α) (t : Token) : Option (Nat × α) :=
  match t.idx with
  | 0 => some (0, raddr0)
  | Nat.succ k => (extras[k]?).map (fun x => (k + 1, x))

/-- The balance-candidate list of `connect_and_relay`: mapped tokens, with
`[(0, raddr0)]` as fallback when the result is empty. -/
def balance_candidates {α : Type} (tokens : List Token) (raddr0 : α) (extras : List α) :
    List (Nat × α) :=
  let out := tokens.filterMap (map_token raddr0 extras)
  if out.isEmpty then [(0, raddr0)] else out

/-- C6, counterexample.  A `Failover` balancer built from an empty weight
list (`Failover::new(&[])`, e.g. via `Balancer::parse_from_str("failover:")`)
has `total = 0`, and `candidates` returns `[Token(0)]` there instead of the
empty list `[Token(0), …, Token(total−1)]` demanded by the claim. -/
theorem C6_counterexample :
    (Failover.new []).total = 0 ∧
    Balancer.candidates (.failover (Failover.new [])) none = [Token.mk 0] ∧
    (List.range (Failover.new []).total).map Token.mk = [] ∧
    ([Token.mk 0] : List Token) ≠ [] := by
  refine ⟨by decide, by decide, by decide, by decide⟩

/-- C6, amended.  For every Failover balancer with `total ≥ 1` peers,
`candidates` returns exactly `[Token(0), …, Token(total−1)]` in order (for
`total = 0` the source special-cases the result to `[Token(0)]`); in the
per-connection task, a token is skipped precisely when its index is nonzero
and exceeds the number of configured extra remotes, and if no valid
candidate remains the list used is exactly `[(0, primary raddr)]`. -/
theorem C6_failover_candidates_amended {α : Type} (f : Failover) (sel : Option Token)
    (tokens : List Token) (raddr0 : α) (extras : List α)
    (htotal : 1 ≤ f.total) :
    Balancer.candidates (.failover f) sel = (List.range f.total).map Token.mk ∧
    (∀ t, map_token raddr0 extras t = none ↔ (t.idx ≠ 0 ∧ extras.length < t.idx)) ∧
    ((∀ t ∈ tokens, t.idx ≠ 0 ∧ extras.length < t.idx) →
      balance_candidates tokens raddr0 extras = [(0, raddr0)]) := by
  refine ⟨?_, ?_, ?_⟩
  · simp only [Balancer.candidates]
    rw [if_neg (show ¬ f.total = 0 by omega)]
    rfl
  · intro t
    unfold map_token
    cases ht : t.idx with
    | zero => simp
    | succ k =>
      simp only [Option.map_eq_none', List.getElem?_eq_none_iff]
      omega
  · intro hall
    unfold balance_candidates
    have : tokens.filterMap (map_token raddr0 extras) = [] := by
      rw [List.filterMap_eq_nil_iff]
      intro t ht
      have := hall t ht
      unfold map_token
      cases hidx : t.idx with
      | zero => omega
      | succ k =>
        simp only [Option.map_eq_none', List.getElem?_eq_none_iff]
        omega
    simp [this]

/-- Witness for `C6_failover_candidates_amended`: two peers, both tokens out
of range for an empty extra list. -/
theorem C6_failover_candidates_amended_witness :
    Balancer.candidates (.failover ⟨2⟩) none = (List.range 2).map Token.mk ∧
    balance_candidates [⟨1⟩, ⟨2⟩] (7 : Nat) [] = [(0, 7)] := by
  have h := C6_failover_candidates_amended (α := Nat) ⟨2⟩ none [⟨1⟩, ⟨2⟩] 7 [] (by decide)
  exact ⟨h.1, h.2.2 (by decide)⟩

/-!
## `realm_core/src/tcp/stats.rs`: `CountStream` byte accounting

`poll_write` forwards to the inner stream and, when the inner write
completes with `Ok(n)`, reports `n` in the field selected by the stream's
direction: `(id, n, 0)` for `Inbound`, `(id, 0, n)` for `Outbound`.
-/

/-- `enum CountDirection`. -/
inductive CountDirection where
  | inbound
  | outbound
  deriving DecidableEq, Repr

/-- Result of one `poll_write` of the inner stream: pending, an IO error,
or `Ok(n)` bytes accepted by the kernel. -/
inductive WritePoll where
  | pending
  | ioError (msg : List Char)
  | accepted (n : Nat)
  deriving DecidableEq, Repr

/-- Observer calls emitted by one `CountStream::poll_write`
(`on_connection_bytes(id, inbound_delta, outbound_delta)` events). -/
def poll_write_events (dir : CountDirection) (id : Nat) (res : WritePoll) :
    List (Nat × Nat × Nat) :=
  match res with
  | .accepted n =>
    match dir with
    | .inbound => [(id, n, 0)]
    | .outbound => [(id, 0, n)]
  | _ => []

/-- Wiring in `connect_and_relay` (middle.rs:284-286): the local (client)
stream is wrapped with `Inbound`, the remote stream with `Outbound`. -/
def local_stream_direction : CountDirection := .inbound

/-- See `local_stream_direction`. -/
def remote_stream_direction : CountDirection := .outbound

/-- Direction of a relayed byte flow. -/
inductive RelayFlow where
  | localToRemote
  | remoteToLocal
  deriving DecidableEq, Repr

/-- Modelled from the spec: the bidirectional relay (`realm_io::bidi_copy` /
`bidi_zero_copy`, not under `src/`) forwards bytes read from one side by
writing them to the opposite side, so bytes flowing local→remote are
written to the remote stream and bytes flowing remote→local are written to
the local stream. -/
def write_stream_for_flow : RelayFlow → CountDirection
  | .localToRemote => remote_stream_direction
  | .remoteToLocal => local_stream_direction

/-- Observer events for a relayed chunk of `n` kernel-accepted bytes of the
given flow. -/
def report_for_flow (id n : Nat) (fl : RelayFlow) : List (Nat × Nat × Nat) :=
  poll_write_events (write_stream_for_flow fl) id (.accepted n)

/-- C4, counterexample.  A 5-byte chunk flowing local→remote is written to
the remote stream (`Outbound`), so it is reported as
`on_connection_bytes(id, 0, 5)`: the inbound delta is 0, not 5 as the claim
requires. -/
theorem C4_counterexample :
    report_for_flow 1 5 .localToRemote = [(1, 0, 5)] ∧
    (1, 0, 5) ≠ ((1, 5, 0) : Nat × Nat × Nat) := by
  refine ⟨by decide, by decide⟩

/-- C4, amended.  Each write accepted by the kernel is reported exactly once
via `on_connection_bytes` with the just-written byte count (nothing is
reported while pending or on error), and the directional convention is the
opposite of the claim's: bytes flowing local→remote are reported as the
OUTBOUND delta and bytes flowing remote→local as the INBOUND delta. -/
theorem C4_count_stream_amended :
    (∀ id n, poll_write_events .inbound id (.accepted n) = [(id, n, 0)]) ∧
    (∀ id n, poll_write_events .outbound id (.accepted n) = [(id, 0, n)]) ∧
    (∀ dir id, poll_write_events dir id .pending = []) ∧
    (∀ dir id msg, poll_write_events dir id (.ioError msg) = []) ∧
    (∀ id n, report_for_flow id n .localToRemote = [(id, 0, n)]) ∧
    (∀ id n, report_for_flow id n .remoteToLocal = [(id, n, 0)]) := by
  refine ⟨fun id n => rfl, fun id n => rfl, fun dir id => ?_, fun dir id msg => ?_,
    fun id n => rfl, fun id n => rfl⟩
  · cases dir <;> rfl
  · cases dir <;> rfl

/-!
## `realm_core/src/tcp/middle.rs`: the connect loop (lines 163-269)

Connect attempts are `await`s against the network; the model abstracts them
by an oracle `connect : round → candidate → Bool` (success or failure), the
100 ms local-close poll by `closedAt : round → Bool` (checked at the top of
each round), the clock reads by `nowAt` and `elapsedAt`.  A `fuel` bound
makes the recursion structural; with `retry_window = 0` one unit of fuel is
enough and the result is fuel-independent.
-/

/-- The health filter of one round: drop peers currently in backoff, and
revert to the unfiltered list when that would leave nothing. -/
def allowed_list {α : Type} (h : Option FailoverHealth) (now : Nat)
    (candidates : List (Nat × α)) : List (Nat × α) :=
  match h with
  | none => candidates
  | some hh =>
    let out := candidates.filter (fun c => ¬ hh.should_skip now c.1)
    if out.isEmpty then candidates else out

/-- One pass of the `for (idx, candidate) in allowed` loop: try candidates
in order until one connects; `mark_ok` on success, `mark_fail` on failure.
Returns (selected, the attempts made in order, the updated health). -/
def attempt_pass {α : Type} (connect : Nat × α → Bool) (now : Nat) :
    Option FailoverHealth → List (Nat × α) →
      Option (Nat × α) × List (Nat × α) × Option FailoverHealth
  | h, [] => (none, [], h)
  | h, c :: rest =>
    if connect c then
      (some c, [c], h.map (fun hh => hh.mark_ok now c.1))
    else
      let r := attempt_pass connect now (h.map (fun hh => hh.mark_fail now c.1)) rest
      (r.1, c :: r.2.1, r.2.2)

/-- Outcome of the connect loop. -/
inductive ConnOutcome (α : Type) where
  | brokenPipe
  | connected (c : Nat × α)
  | failed (lastErr : Option (Nat × α))
  | fuelExhausted
  deriving DecidableEq, Repr

/-- The retry loop of `connect_and_relay`: check the client for EOF, filter
candidates by health, run one pass, and either finish, retry (when
`retry_window_ms > 0` and time remains), or surface the last error
(`failed none` models `InvalidInput "could not connect"`).  The attempt
trace records `(round, idx, addr)` triples. -/
def connect_loop {α : Type} (connect : Nat → Nat × α → Bool) (closedAt : Nat → Bool)
    (nowAt elapsedAt : Nat → Nat) (candidates : List (Nat × α)) (retry_window : Nat) :
    Nat → Nat → Option FailoverHealth → Option (Nat × α) →
      ConnOutcome α × List (Nat × Nat × α)
  | 0, _, _, _ => (.fuelExhausted, [])
  | fuel + 1, r, h, lastErr =>
    if closedAt r then (.brokenPipe, [])
    else
      let allowed := allowed_list h (nowAt r) candidates
      let p := attempt_pass (connect r) (nowAt r) h allowed
      let trace := p.2.1.map (fun c => (r, c.1, c.2))
      match p.1 with
      | some c => (.connected c, trace)
      | none =>
        let lastErr2 := if p.2.1.isEmpty then lastErr else p.2.1.getLast?
        if retry_window = 0 then (.failed lastErr2, trace)
        else if retry_window ≤ elapsedAt r then (.failed lastErr2, trace)
        else
          let rest := connect_loop connect closedAt nowAt elapsedAt candidates retry_window
            fuel (r + 1) p.2.2 lastErr2
          (rest.1, trace ++ rest.2)

theorem attempt_pass_spec {α : Type} (connect : Nat × α → Bool) (now : Nat)
    (h : Option FailoverHealth) (l : List (Nat × α)) :
    ∃ k, k ≤ l.length ∧ (attempt_pass connect now h l).2.1 = l.take k ∧
      ((attempt_pass connect now h l).1 = none →
        k = l.length ∧ ∀ c ∈ l, connect c = false) ∧
      (∀ c, (attempt_pass connect now h l).1 = some c → c ∈ l ∧ connect c = true) := by
  induction l generalizing h with
  | nil =>
    exact ⟨0, by simp [attempt_pass]⟩
  | cons c rest ih =>
    cases hc : connect c with
    | true =>
      refine ⟨1, by simp only [List.length_cons]; omega, ?_, ?_, ?_⟩
      · simp [attempt_pass, hc]
      · intro hnone
        simp [attempt_pass, hc] at hnone
      · intro x hx
        simp [attempt_pass, hc] at hx
        subst hx
        exact ⟨by simp, hc⟩
    | false =>
      obtain ⟨k, hk, htake, hfail, hmem⟩ := ih (h.map (fun hh => hh.mark_fail now c.1))
      refine ⟨k + 1, by simp only [List.length_cons]; omega, ?_, ?_, ?_⟩
      · simp [attempt_pass, hc, htake]
      · intro hnone
        simp only [attempt_pass, hc, Bool.false_eq_true, if_false] at hnone
        have := hfail hnone
        refine ⟨by simp [this.1], ?_⟩
        intro x hx
        rcases List.mem_cons.mp hx with hx1 | hx2
        · rw [hx1]
          exact hc
        · exact this.2 x hx2
      · intro x hx
        simp only [attempt_pass, hc, Bool.false_eq_true, if_false] at hx
        obtain ⟨hx1, hx2⟩ := hmem x hx
        exact ⟨List.mem_cons_of_mem c hx1, hx2⟩

theorem connect_loop_zero_connected {α : Type} (connect : Nat → Nat × α → Bool)
    (closedAt : Nat → Bool) (nowAt elapsedAt : Nat → Nat)
    (candidates : List (Nat × α)) (h : Option FailoverHealth) (fuel : Nat)
    (c : Nat × α) (hopen : closedAt 0 = false)
    (hp : (attempt_pass (connect 0) (nowAt 0) h (allowed_list h (nowAt 0) candidates)).1 =
      some c) :
    connect_loop connect closedAt nowAt elapsedAt candidates 0 (fuel + 1) 0 h none =
      (.connected c,
        (attempt_pass (connect 0) (nowAt 0) h
          (allowed_list h (nowAt 0) candidates)).2.1.map (fun d => (0, d.1, d.2))) := by
  simp only [connect_loop, hopen, Bool.false_eq_true, if_false, hp]

theorem connect_loop_zero_failed {α : Type} (connect : Nat → Nat × α → Bool)
    (closedAt : Nat → Bool) (nowAt elapsedAt : Nat → Nat)
    (candidates : List (Nat × α)) (h : Option FailoverHealth) (fuel : Nat)
    (hopen : closedAt 0 = false)
    (hp : (attempt_pass (connect 0) (nowAt 0) h (allowed_list h (nowAt 0) candidates)).1 =
      none) :
    connect_loop connect closedAt nowAt elapsedAt candidates 0 (fuel + 1) 0 h none =
      (.failed (if (attempt_pass (connect 0) (nowAt 0) h
            (allowed_list h (nowAt 0) candidates)).2.1.isEmpty then none
          else (attempt_pass (connect 0) (nowAt 0) h
            (allowed_list h (nowAt 0) candidates)).2.1.getLast?),
        (attempt_pass (connect 0) (nowAt 0) h
          (allowed_list h (nowAt 0) candidates)).2.1.map (fun d => (0, d.1, d.2))) := by
  simp [connect_loop, hopen, hp]

/-- C8, confirmed (against the loop model).  With `retry_window_ms = 0` the
connect loop runs exactly one pass over the (health-filtered) candidate
list: the attempt trace is an initial segment of that single pass (all in
round 0), each candidate is attempted at most once, and when every attempt
fails the outcome surfaces the last error of that pass (`failed none`, i.e.
InvalidInput "could not connect", when there was no attempt at all); a
closed client yields `BrokenPipe` with no attempts.  The result does not
depend on the fuel bound, for any fuel ≥ 1. -/
theorem C8_retry_window_zero_single_pass {α : Type} (connect : Nat → Nat × α → Bool)
    (closedAt : Nat → Bool) (nowAt elapsedAt : Nat → Nat)
    (candidates : List (Nat × α)) (h : Option FailoverHealth) (fuel : Nat)
    (hfuel : 1 ≤ fuel) :
    (closedAt 0 = true →
      connect_loop connect closedAt nowAt elapsedAt candidates 0 fuel 0 h none =
        (.brokenPipe, [])) ∧
    (closedAt 0 = false →
      (∃ k, k ≤ (allowed_list h (nowAt 0) candidates).length ∧
        (connect_loop connect closedAt nowAt elapsedAt candidates 0 fuel 0 h none).2 =
          ((allowed_list h (nowAt 0) candidates).take k).map (fun c => (0, c.1, c.2))) ∧
      (candidates.Nodup →
        (connect_loop connect closedAt nowAt elapsedAt candidates 0 fuel 0 h none).2.Nodup) ∧
      (∀ c, (connect_loop connect closedAt nowAt elapsedAt candidates 0 fuel 0 h none).1 =
          .connected c → c ∈ allowed_list h (nowAt 0) candidates ∧ connect 0 c = true) ∧
      ((∀ c ∈ allowed_list h (nowAt 0) candidates, connect 0 c = false) →
        (connect_loop connect closedAt nowAt elapsedAt candidates 0 fuel 0 h none).1 =
          .failed (allowed_list h (nowAt 0) candidates).getLast?)) := by
  obtain ⟨fuel, rfl⟩ : ∃ m, fuel = m + 1 := ⟨fuel - 1, by omega⟩
  constructor
  · intro hclosed
    simp [connect_loop, hclosed]
  · intro hopen
    obtain ⟨k, hk, htake, hfail, hmem⟩ :=
      attempt_pass_spec (connect 0) (nowAt 0) h (allowed_list h (nowAt 0) candidates)
    have hnodup_allowed : candidates.Nodup → (allowed_list h (nowAt 0) candidates).Nodup := by
      intro hnd
      unfold allowed_list
      cases h with
      | none => exact hnd
      | some hh =>
        simp only
        split_ifs
        · exact hnd
        · exact hnd.filter _
    have htr : (connect_loop connect closedAt nowAt elapsedAt candidates 0 (fuel + 1)
        0 h none).2 =
        ((allowed_list h (nowAt 0) candidates).take k).map (fun c => (0, c.1, c.2)) := by
      cases hp : (attempt_pass (connect 0) (nowAt 0) h
          (allowed_list h (nowAt 0) candidates)).1 with
      | none =>
        rw [connect_loop_zero_failed connect closedAt nowAt elapsedAt candidates h fuel
          hopen hp, htake]
      | some c =>
        rw [connect_loop_zero_connected connect closedAt nowAt elapsedAt candidates h fuel
          c hopen hp, htake]
    refine ⟨⟨k, hk, htr⟩, ?_, ?_, ?_⟩
    · intro hnd
      rw [htr]
      refine List.Nodup.map ?_ ((hnodup_allowed hnd).sublist (List.take_sublist _ _))
      intro a b hab
      simpa using congrArg (fun x => (x.2.1, x.2.2)) hab
    · intro c hc
      cases hp : (attempt_pass (connect 0) (nowAt 0) h
          (allowed_list h (nowAt 0) candidates)).1 with
      | none =>
        rw [connect_loop_zero_failed connect closedAt nowAt elapsedAt candidates h fuel
          hopen hp] at hc
        simp at hc
      | some d =>
        rw [connect_loop_zero_connected connect closedAt nowAt elapsedAt candidates h fuel
          d hopen hp] at hc
        simp only at hc
        cases hc
        exact hmem _ hp
    · intro hallfail
      cases hp : (attempt_pass (connect 0) (nowAt 0) h
          (allowed_list h (nowAt 0) candidates)).1 with
      | some d =>
        obtain ⟨hd1, hd2⟩ := hmem d hp
        rw [hallfail d hd1] at hd2
        cases hd2
      | none =>
        rw [connect_loop_zero_failed connect closedAt nowAt elapsedAt candidates h fuel
          hopen hp]
        obtain ⟨hk2, _⟩ := hfail hp
        rw [htake, hk2, List.take_length]
        by_cases hemp : (allowed_list h (nowAt 0) candidates) = []
        · simp [hemp]
        · simp [List.isEmpty_iff, hemp]

/-- Witness for `C8_retry_window_zero_single_pass`: two candidates, both
failing, client open. -/
theorem C8_retry_window_zero_single_pass_witness :
    (connect_loop (α := Nat) (fun _ _ => false) (fun _ => false) (fun _ => 0) (fun _ => 0)
        [(0, 10), (1, 11)] 0 1 0 none none).1 =
      .failed (allowed_list none 0 [(0, 10), (1, 11)]).getLast? := by
  exact (C8_retry_window_zero_single_pass (fun _ _ => false) (fun _ => false) (fun _ => 0)
    (fun _ => 0) [(0, 10), (1, 11)] none 1 (by decide)).2 (by decide) |>.2.2.2 (by decide)

/-!
## `src/api.rs`: instance-id validation and `create_instance`

`validate_instance_id` trims the candidate id first and checks the trimmed
string; `str::len()` is a byte count, modelled by the summed UTF-8 sizes.
The registry is modelled as an association list from id to generation;
`create_instance` returns all its `400` errors before touching the
registry, so the error paths leave it unchanged by construction, exactly as
in the source where the registry lock is only taken after validation.
-/

/-- Rust `str::len()`: the UTF-8 byte length. -/
def utf8Len (s : List Char) : Nat := (s.map Char.utf8Size).sum

/-- `validate_instance_id` (api.rs:768-783).  Note the leading `id.trim()`:
all checks apply to the TRIMMED id. -/
def validate_instance_id (id : List Char) : Except (List Char) Unit :=
  let idT := trimChars id
  if idT = [] then .error "id must not be empty".data
  else if utf8Len idT > 256 then .error "id too long".data
  else if idT.any rustIsWhitespace then .error "id must not contain whitespace".data
  else if idT.contains '/' ∨ idT.contains '\\' then .error "id must not contain separators".data
  else .ok ()

/-- The parts of `CreateInstanceRequest` that decide acceptance: the two
optional ids and whether `config.try_build()` succeeds (abstracted, since
the claim is only about id handling). -/
structure CreateRequest where
  id : Option (List Char)
  external_id : Option (List Char)
  config_ok : Bool

/-- API error shapes relevant to `create_instance`. -/
inductive ApiError where
  | invalidId (msg : List Char)
  | invalidConfig
  deriving DecidableEq, Repr

/-- Registry upsert of `create_instance` (api.rs:820-856): bump the
generation of an existing record (`saturating_add`), or insert a fresh one
with generation 1. -/
def upsert_instance (registry : List (List Char × Nat)) (id : List Char) :
    List (List Char × Nat) :=
  if (registry.lookup id).isSome then
    registry.map (fun p => if p.1 = id then (p.1, satAdd64 p.2 1) else p)
  else
    registry ++ [(id, 1)]

/-- `create_instance` (api.rs:791-856), up to the registry mutation: the
id/external_id mismatch check, the config build, the id validation (the
missing id becomes a fresh UUID, abstracted as `uuid`), then the upsert.
Every error is returned before the registry is read or written. -/
def create_instance (registry : List (List Char × Nat)) (req : CreateRequest)
    (uuid : List Char) : Except ApiError (List Char × List (List Char × Nat)) :=
  if req.id.isSome ∧ req.external_id.isSome ∧ req.id ≠ req.external_id then
    .error (.invalidId "id and external_id must match".data)
  else if req.config_ok = false then
    .error .invalidConfig
  else
    match req.id.or req.external_id with
    | some id =>
      match validate_instance_id id with
      | .error e => .error (.invalidId e)
      | .ok _ => .ok (id, upsert_instance registry id)
    | none => .ok (uuid, upsert_instance registry uuid)

/-- C9, counterexample.  The id `" a"` contains whitespace (a leading
space), so the claim demands a 400 invalid_id rejection; but
`validate_instance_id` trims the id before checking, accepts it, and
`create_instance` creates a record under the UNtrimmed key `" a"`. -/
theorem C9_counterexample :
    " a".data.any rustIsWhitespace = true ∧
    validate_instance_id " a".data = .ok () ∧
    create_instance [] ⟨some " a".data, none, true⟩ "uuid".data =
      .ok (" a".data, [(" a".data, 1)]) := by
  refine ⟨by decide, by decide, by decide⟩

/-- C9, amended.  An explicit id is accepted iff, AFTER trimming leading and
trailing whitespace, it is non-empty, at most 256 bytes, contains no
whitespace and no '/' or '\\' (so only interior whitespace is rejected; the
untrimmed id is what gets stored); any id whose trimmed form violates one
of these rules is rejected with 400 invalid_id before any instance record
is created or modified. -/
theorem C9_instance_id_amended (id : List Char) :
    (validate_instance_id id = .ok () ↔
      (trimChars id ≠ [] ∧ utf8Len (trimChars id) ≤ 256 ∧
        (trimChars id).any rustIsWhitespace = false ∧
        (trimChars id).contains '/' = false ∧
        (trimChars id).contains '\\' = false)) ∧
    (∀ registry uuid msg, validate_instance_id id = .error msg →
      create_instance registry ⟨some id, none, true⟩ uuid = .error (.invalidId msg)) := by
  constructor
  · unfold validate_instance_id
    simp only
    split_ifs with h1 h2 h3 h4
    · simp [h1]
    · constructor
      · intro hx
        exact absurd hx (by simp)
      · rintro ⟨-, hle, -⟩
        omega
    · simp [h3]
    · refine iff_of_false (by simp) ?_
      rintro ⟨-, -, -, hc1, hc2⟩
      rcases h4 with h4 | h4
      · rw [h4] at hc1
        simp at hc1
      · rw [h4] at hc2
        simp at hc2
    · simp only [not_or] at h4
      refine iff_of_true rfl ⟨h1, by omega, by simpa using h3, by simpa using h4.1,
        by simpa using h4.2⟩
  · intro registry uuid msg hval
    unfold create_instance
    rw [if_neg (by simp), if_neg (by simp)]
    simp [Option.or, hval]

/-- Witness for `C9_instance_id_amended` at the id "a/b". -/
theorem C9_instance_id_amended_witness :
    validate_instance_id "a/b".data = .error "id must not contain separators".data ∧
    create_instance [] ⟨some "a/b".data, none, true⟩ "uuid".data =
      .error (.invalidId "id must not contain separators".data) := by
  refine ⟨by decide, ?_⟩
  exact (C9_instance_id_amended "a/b".data).2 [] "uuid".data
    "id must not contain separators".data (by decide)

/-!
## `realm_core/src/udp/middle.rs`: `group_by_addr` / `group_by_inner`

The packet buffer is a `List α` (`α` abstracting `Packet`), the source
addresses are exposed through a key function, and `<[T]>::swap` is
`listSwap`.  The two nested `while` loops become two recursive functions
whose termination measures are the loops' own (`maxn - probe` and
`maxn - end`).
-/

/-- `<[T]>::swap(i, j)` (the loops only call it in bounds; out of bounds the
model is the identity). -/
def listSwap {α : Type} (l : List α) (i j : Nat) : List α :=
  match l[i]?, l[j]? with
  | some a, some b => (l.set i b).set j a
  | _, _ => l

/-- The comparison `eq(&data[i], &data[j])` (both indices are in bounds at
every call site; out of bounds the model reads `false`). -/
def testEq {α : Type} (eq : α → α → Bool) (l : List α) (i j : Nat) : Bool :=
  match l[i]?, l[j]? with
  | some x, some y => eq x y
  | _, _ => false

theorem listSwap_length {α : Type} (l : List α) (i j : Nat) :
    (listSwap l i j).length = l.length := by
  unfold listSwap
  cases hi : l[i]? <;> cases hj : l[j]? <;> simp

theorem set_getElem?_self {α : Type} (l : List α) (i : Nat) (a : α) (h : l[i]? = some a) :
    l.set i a = l := by
  apply List.ext_getElem?
  intro k
  by_cases hk : k = i
  · subst hk
    rw [List.getElem?_set_self (List.getElem?_eq_some_iff.mp h).1, h]
  · exact List.getElem?_set_ne (fun hh => hk hh.symm) ..

theorem listSwap_fst {α : Type} (l : List α) (i j : Nat) (a b : α)
    (hi : l[i]? = some a) (hj : l[j]? = some b) :
    (listSwap l i j)[i]? = some b := by
  have hil : i < l.length := (List.getElem?_eq_some_iff.mp hi).1
  unfold listSwap
  rw [hi, hj]
  show ((l.set i b).set j a)[i]? = some b
  by_cases hij : i = j
  · subst hij
    rw [List.set_set, List.getElem?_set_self (by simpa using hil)]
    rw [hi] at hj
    exact hj
  · rw [List.getElem?_set_ne (fun hh => hij hh.symm),
      List.getElem?_set_self (by simpa using hil)]

theorem listSwap_snd {α : Type} (l : List α) (i j : Nat) (a b : α)
    (hi : l[i]? = some a) (hj : l[j]? = some b) :
    (listSwap l i j)[j]? = some a := by
  have hjl : j < l.length := (List.getElem?_eq_some_iff.mp hj).1
  unfold listSwap
  rw [hi, hj]
  show ((l.set i b).set j a)[j]? = some a
  rw [List.getElem?_set_self (by simpa using hjl)]

theorem listSwap_other {α : Type} (l : List α) (i j k : Nat) (hk1 : k ≠ i) (hk2 : k ≠ j) :
    (listSwap l i j)[k]? = l[k]? := by
  unfold listSwap
  cases hi : l[i]? with
  | none => cases hj : l[j]? <;> rfl
  | some a =>
    cases hj : l[j]? with
    | none => rfl
    | some b =>
      show ((l.set i b).set j a)[k]? = l[k]?
      rw [List.getElem?_set_ne (fun hh => hk2 hh.symm),
        List.getElem?_set_ne (fun hh => hk1 hh.symm)]

theorem count_set_balance {α : Type} [DecidableEq α] (l : List α) (i : Nat) (x a : α)
    (hi : i < l.length) :
    (l.set i x).count a + (if l[i]? = some a then 1 else 0) =
      l.count a + (if x = a then 1 else 0) := by
  induction l generalizing i with
  | nil => simp at hi
  | cons c rest ih =>
    cases i with
    | zero =>
      simp only [List.set_cons_zero, List.getElem?_cons_zero, Option.some.injEq,
        List.count_cons]
      by_cases hca : c = a <;> by_cases hxa : x = a <;> simp [hca, hxa] <;> omega
    | succ n =>
      have hn : n < rest.length := by simpa using hi
      have := ih n hn
      simp only [List.set_cons_succ, List.getElem?_cons_succ, List.count_cons]
      by_cases hca : c = a <;> simp [hca] <;> omega

theorem listSwap_perm {α : Type} (l : List α) (i j : Nat) :
    List.Perm (listSwap l i j) l := by
  have : DecidableEq α := Classical.decEq α
  unfold listSwap
  cases hi : l[i]? with
  | none => exact List.Perm.refl l
  | some a =>
    cases hj : l[j]? with
    | none => exact List.Perm.refl l
    | some b =>
      have hil : i < l.length := (List.getElem?_eq_some_iff.mp hi).1
      have hjl : j < l.length := (List.getElem?_eq_some_iff.mp hj).1
      show ((l.set i b).set j a).Perm l
      by_cases hij : i = j
      · subst hij
        rw [hi] at hj
        cases Option.some.inj hj
        rw [List.set_set, set_getElem?_self l i a hi]
      · rw [List.perm_iff_count]
        intro x
        have e1 := count_set_balance (l.set i b) j a x (by simpa using hjl)
        have e2 := count_set_balance l i b x hil
        rw [List.getElem?_set_ne hij, hj] at e1
        rw [hi] at e2
        by_cases hax : a = x <;> by_cases hbx : b = x <;>
          simp [hax, hbx] at e1 e2 ⊢ <;> omega

/-- The inner `while probe < maxn` loop of `group_by_inner` (lines 96-102):
pull every later element equal to `data[beg]` down to position `end`
(called `e` here).  Returns the updated buffer and the final `end`. -/
def probeLoop {α : Type} (eq : α → α → Bool) (maxn : Nat) (data : List α)
    (beg e probe : Nat) : List α × Nat :=
  if h : probe < maxn then
    if testEq eq data probe beg then
      probeLoop eq maxn (listSwap data probe e) beg (e + 1) (probe + 1)
    else
      probeLoop eq maxn data beg e (probe + 1)
  else (data, e)
termination_by maxn - probe
decreasing_by
  · omega
  · omega

theorem probeLoop_e_le_aux {α : Type} (eq : α → α → Bool) (maxn : Nat) :
    ∀ (n : Nat) (data : List α) (beg e probe : Nat), maxn - probe ≤ n →
      e ≤ (probeLoop eq maxn data beg e probe).2 := by
  intro n
  induction n with
  | zero =>
    intro data beg e probe hn
    rw [probeLoop, dif_neg (by omega : ¬ probe < maxn)]
  | succ m ih =>
    intro data beg e probe hn
    rw [probeLoop]
    by_cases h : probe < maxn
    · rw [dif_pos h]
      by_cases ht : testEq eq data probe beg
      · rw [if_pos ht]
        have := ih (listSwap data probe e) beg (e + 1) (probe + 1) (by omega)
        omega
      · rw [if_neg ht]
        exact ih data beg e (probe + 1) (by omega)
    · rw [dif_neg h]

theorem probeLoop_e_le {α : Type} (eq : α → α → Bool) (maxn : Nat) (data : List α)
    (beg e probe : Nat) : e ≤ (probeLoop eq maxn data beg e probe).2 :=
  probeLoop_e_le_aux eq maxn (maxn - probe) data beg e probe (le_refl _)

/-- The outer `while end < maxn` loop of `group_by_inner` (lines 88-105):
extend the current group while `data[end]` matches `data[beg]`; otherwise
run the probe loop, push the finished group and start the next one.  The
final `groups.push(beg..end)` of line 106 is the exit case. -/
def outerLoop {α : Type} (eq : α → α → Bool) (maxn : Nat) (data : List α)
    (beg e : Nat) (groups : List (Nat × Nat)) : List α × List (Nat × Nat) :=
  if h : e < maxn then
    if testEq eq data e beg then
      outerLoop eq maxn data beg (e + 1) groups
    else
      let r := probeLoop eq maxn data beg e (e + 1)
      outerLoop eq maxn r.1 r.2 (r.2 + 1) (groups ++ [(beg, r.2)])
  else (data, groups ++ [(beg, e)])
termination_by maxn - e
decreasing_by
  · omega
  · have : e ≤ (probeLoop eq maxn data beg e (e + 1)).2 := probeLoop_e_le eq maxn data beg e (e + 1)
    omega

/-- `group_by_inner(data, groups, eq)` with an initially cleared `groups`:
`(beg, end) = (0, 1)`. -/
def group_by_inner {α : Type} (eq : α → α → Bool) (data : List α) :
    List α × List (Nat × Nat) :=
  outerLoop eq data.length data 0 1 []

/-- `Registry::group_by_addr`, with packet source addresses exposed by a
key function (`|a, b| a.addr == b.addr`). -/
def group_by_addr {α κ : Type} [DecidableEq κ] (key : α → κ) (pkts : List α) :
    List α × List (Nat × Nat) :=
  group_by_inner (fun a b => decide (key a = key b)) pkts

theorem testEq_eq_of_some {α : Type} (eq : α → α → Bool) (l : List α) (i j : Nat) (x y : α)
    (hi : l[i]? = some x) (hj : l[j]? = some y) : testEq eq l i j = eq x y := by
  unfold testEq
  rw [hi, hj]

/-- The equality test `|a, b| a.addr == b.addr` of `group_by_addr`, with the
address exposed by `key`. -/
def keyEq {α κ : Type} [DecidableEq κ] (key : α → κ) : α → α → Bool :=
  fun a b => decide (key a = key b)

theorem probeLoop_spec {α κ : Type} [DecidableEq κ] (key : α → κ) (maxn : Nat) :
    ∀ (n : Nat) (data : List α) (beg e probe : Nat) (p : α) (d2 : List α) (e2 : Nat),
      maxn - probe ≤ n →
      data.length = maxn →
      beg < e → e < probe → probe ≤ maxn →
      data[beg]? = some p →
      (∀ k, beg ≤ k → k < e → ∃ x, data[k]? = some x ∧ key x = key p) →
      (∀ k, e ≤ k → k < probe → ∃ x, data[k]? = some x ∧ key x ≠ key p) →
      probeLoop (keyEq key) maxn data beg e probe = (d2, e2) →
      d2.length = maxn ∧ e ≤ e2 ∧ e2 < maxn ∧
      (∀ k, k < e → d2[k]? = data[k]?) ∧
      (∀ k, beg ≤ k → k < e2 → ∃ x, d2[k]? = some x ∧ key x = key p) ∧
      (∀ k, e2 ≤ k → k < maxn → ∃ x, d2[k]? = some x ∧ key x ≠ key p) ∧
      List.Perm d2 data ∧
      (∀ P : α → Prop, (∀ k x, e ≤ k → k < maxn → data[k]? = some x → P x) →
        ∀ k x, e2 ≤ k → k < maxn → d2[k]? = some x → P x) := by
  intro n
  induction n with
  | zero =>
    intro data beg e probe p d2 e2 hn hlen hbe hep hpm hp hC hD heq
    rw [probeLoop, dif_neg (by omega : ¬ probe < maxn)] at heq
    injection heq with h1 h2
    subst h1
    subst h2
    have hpmax : probe = maxn := by omega
    refine ⟨hlen, le_refl _, by omega, fun k hk => rfl, hC, ?_, List.Perm.refl _, ?_⟩
    · intro k hk1 hk2
      exact hD k hk1 (by omega)
    · intro P hP k x hk1 hk2 hx
      exact hP k x hk1 hk2 hx
  | succ m ih =>
    intro data beg e probe p d2 e2 hn hlen hbe hep hpm hp hC hD heq
    rw [probeLoop] at heq
    by_cases h : probe < maxn
    · rw [dif_pos h] at heq
      have hprobe_lt : probe < data.length := by omega
      have hxp : data[probe]? = some data[probe] := List.getElem?_eq_getElem hprobe_lt
      obtain ⟨be, hbe_get, hbe_key⟩ := hD e (le_refl e) hep
      rw [testEq_eq_of_some (keyEq key) data probe beg data[probe] p hxp hp] at heq
      by_cases ht : key data[probe] = key p
      · rw [if_pos (by simp [keyEq, ht])] at heq
        have hswap_len : (listSwap data probe e).length = maxn := by
          rw [listSwap_length]; exact hlen
        have hswap_beg : (listSwap data probe e)[beg]? = some p := by
          rw [listSwap_other data probe e beg (by omega) (by omega)]; exact hp
        have hswap_C : ∀ k, beg ≤ k → k < e + 1 →
            ∃ x, (listSwap data probe e)[k]? = some x ∧ key x = key p := by
          intro k hk1 hk2
          by_cases hke : k = e
          · refine ⟨data[probe], ?_, ht⟩
            rw [hke]
            exact listSwap_snd data probe e data[probe] be hxp hbe_get
          · rw [listSwap_other data probe e k (by omega) hke]
            exact hC k hk1 (by omega)
        have hswap_D : ∀ k, e + 1 ≤ k → k < probe + 1 →
            ∃ x, (listSwap data probe e)[k]? = some x ∧ key x ≠ key p := by
          intro k hk1 hk2
          by_cases hkp : k = probe
          · refine ⟨be, ?_, hbe_key⟩
            rw [hkp]
            exact listSwap_fst data probe e data[probe] be hxp hbe_get
          · rw [listSwap_other data probe e k hkp (by omega)]
            exact hD k (by omega) (by omega)
        obtain ⟨r1, r2, r3, r4, r5, r6, r7, r8⟩ :=
          ih (listSwap data probe e) beg (e + 1) (probe + 1) p d2 e2 (by omega) hswap_len
            (by omega) (by omega) (by omega) hswap_beg hswap_C hswap_D heq
        refine ⟨r1, by omega, r3, ?_, r5, r6,
          r7.trans (listSwap_perm data probe e), ?_⟩
        · intro k hk
          rw [r4 k (by omega), listSwap_other data probe e k (by omega) (by omega)]
        · intro P hP k x hk1 hk2 hx
          refine r8 P ?_ k x hk1 hk2 hx
          intro k2 x2 hk21 hk22 hx2
          by_cases hk2p : k2 = probe
          · rw [hk2p, listSwap_fst data probe e data[probe] be hxp hbe_get] at hx2
            cases hx2
            exact hP e be (le_refl e) (by omega) hbe_get
          · rw [listSwap_other data probe e k2 hk2p (by omega)] at hx2
            exact hP k2 x2 (by omega) hk22 hx2
      · rw [if_neg (by simp [keyEq, ht])] at heq
        have hD2 : ∀ k, e ≤ k → k < probe + 1 →
            ∃ x, data[k]? = some x ∧ key x ≠ key p := by
          intro k hk1 hk2
          by_cases hkp : k = probe
          · refine ⟨data[probe], ?_, ht⟩
            rw [hkp]
            exact hxp
          · exact hD k hk1 (by omega)
        obtain ⟨r1, r2, r3, r4, r5, r6, r7, r8⟩ :=
          ih data beg e (probe + 1) p d2 e2 (by omega) hlen hbe (by omega) (by omega)
            hp hC hD2 heq
        exact ⟨r1, r2, r3, r4, r5, r6, r7, r8⟩
    · rw [dif_neg h] at heq
      injection heq with h1 h2
      subst h1
      subst h2
      refine ⟨hlen, le_refl _, by omega, fun k hk => rfl, hC, ?_, List.Perm.refl _, ?_⟩
      · intro k hk1 hk2
        exact hD k hk1 (by omega)
      · intro P hP k x hk1 hk2 hx
        exact hP k x hk1 hk2 hx

/-- The group ranges form a gapless chain from `s` to `t` (each range
nonempty, consecutive, covering `[s, t)`). -/
def chain_cover : List (Nat × Nat) → Nat → Nat → Prop
  | [], s, t => s = t
  | g :: gs, s, t => g.1 = s ∧ g.1 < g.2 ∧ chain_cover gs g.2 t

theorem chain_cover_append_one (gs : List (Nat × Nat)) (s t e : Nat)
    (h : chain_cover gs s t) (hte : t < e) :
    chain_cover (gs ++ [(t, e)]) s e := by
  induction gs generalizing s with
  | nil =>
    cases h
    exact ⟨rfl, hte, rfl⟩
  | cons g gs ih =>
    obtain ⟨h1, h2, h3⟩ := h
    exact ⟨h1, h2, ih g.2 h3⟩

theorem chain_cover_le (gs : List (Nat × Nat)) (s t : Nat) (h : chain_cover gs s t) :
    s ≤ t := by
  induction gs generalizing s with
  | nil => exact le_of_eq h
  | cons g gs ih =>
    obtain ⟨h1, h2, h3⟩ := h
    have := ih g.2 h3
    omega

theorem chain_cover_mem_bounds (gs : List (Nat × Nat)) (s t : Nat)
    (h : chain_cover gs s t) : ∀ g ∈ gs, s ≤ g.1 ∧ g.1 < g.2 ∧ g.2 ≤ t := by
  induction gs generalizing s with
  | nil => intro g hg; simp at hg
  | cons g0 gs ih =>
    obtain ⟨h1, h2, h3⟩ := h
    intro g hg
    rcases List.mem_cons.mp hg with hg1 | hg2
    · subst hg1
      exact ⟨le_of_eq h1.symm, h2, chain_cover_le gs g.2 t h3⟩
    · have := ih g0.2 h3 g hg2
      omega

theorem chain_cover_covers (gs : List (Nat × Nat)) (s t : Nat)
    (h : chain_cover gs s t) : ∀ k, s ≤ k → k < t → ∃ g ∈ gs, g.1 ≤ k ∧ k < g.2 := by
  induction gs generalizing s with
  | nil =>
    cases h
    intro k hk1 hk2
    omega
  | cons g gs ih =>
    obtain ⟨h1, h2, h3⟩ := h
    intro k hk1 hk2
    by_cases hk : k < g.2
    · exact ⟨g, by simp, by omega, hk⟩
    · obtain ⟨g2, hg2, hg21, hg22⟩ := ih g.2 h3 k (by omega) hk2
      exact ⟨g2, by simp [hg2], hg21, hg22⟩

/-- A produced range `g` holds exactly the packets of its own address: for
every position `k` of the buffer, the element at `k` shares the address of
the element at `g.1` iff `k` lies in `g`. -/
def group_iff {α κ : Type} [DecidableEq κ] (key : α → κ) (data : List α) (maxn : Nat)
    (g : Nat × Nat) : Prop :=
  ∀ k q x, k < maxn → data[g.1]? = some q → data[k]? = some x →
    (key x = key q ↔ (g.1 ≤ k ∧ k < g.2))

theorem prev_groups_mismatch {α κ : Type} [DecidableEq κ] (key : α → κ)
    (data : List α) (maxn : Nat) (groups : List (Nat × Nat)) (beg : Nat)
    (hlen : data.length = maxn) (hbm : beg < maxn)
    (hcc : chain_cover groups 0 beg)
    (hI5 : ∀ g ∈ groups, group_iff key data maxn g)
    (q : α) (hq : data[beg]? = some q) :
    ∀ k x, k < beg → data[k]? = some x → key x ≠ key q := by
  intro k x hk hx hcontra
  obtain ⟨g, hg, hg1, hg2⟩ := chain_cover_covers groups 0 beg hcc k (Nat.zero_le k) hk
  have hgb := chain_cover_mem_bounds groups 0 beg hcc g hg
  have hg1m : g.1 < data.length := by omega
  have hqg : data[g.1]? = some data[g.1] := List.getElem?_eq_getElem hg1m
  have hiff := hI5 g hg
  have h1 : key x = key data[g.1] :=
    (hiff k data[g.1] x (by omega) hqg hx).mpr ⟨hg1, hg2⟩
  have h2 : key q = key data[g.1] := by rw [← hcontra]; exact h1
  have h3 := (hiff beg data[g.1] q hbm hqg hq).mp h2
  omega

theorem outer_exit_case {α κ : Type} [DecidableEq κ] (key : α → κ)
    (data : List α) (maxn : Nat) (groups : List (Nat × Nat)) (beg : Nat)
    (hlen : data.length = maxn) (hbeg : beg < maxn)
    (hI3 : ∀ k q, beg ≤ k → k < maxn → data[beg]? = some q →
      ∃ x, data[k]? = some x ∧ key x = key q)
    (hcc : chain_cover groups 0 beg)
    (hI5 : ∀ g ∈ groups, group_iff key data maxn g) :
    chain_cover (groups ++ [(beg, maxn)]) 0 maxn ∧
    (∀ g ∈ groups ++ [(beg, maxn)], group_iff key data maxn g) := by
  refine ⟨chain_cover_append_one groups 0 beg maxn hcc hbeg, ?_⟩
  intro g hg
  rcases List.mem_append.mp hg with hg1 | hg2
  · exact hI5 g hg1
  · have hgeq : g = (beg, maxn) := by simpa using hg2
    subst hgeq
    intro k q x hk hq hx
    constructor
    · intro hkey
      refine ⟨?_, hk⟩
      by_contra hkb
      exact prev_groups_mismatch key data maxn groups beg hlen hbeg hcc hI5 q hq
        k x (by omega) hx hkey
    · rintro ⟨hk1, -⟩
      obtain ⟨x2, hx2, hkey2⟩ := hI3 k q hk1 hk hq
      rw [hx] at hx2
      cases hx2
      exact hkey2

theorem outerLoop_spec {α κ : Type} [DecidableEq κ] (key : α → κ) (maxn : Nat) :
    ∀ (n : Nat) (data : List α) (beg e : Nat) (groups : List (Nat × Nat))
      (d2 : List α) (gs2 : List (Nat × Nat)),
      maxn - e ≤ n →
      data.length = maxn →
      beg < e → e ≤ maxn →
      (∀ k q, beg ≤ k → k < e → data[beg]? = some q →
        ∃ x, data[k]? = some x ∧ key x = key q) →
      chain_cover groups 0 beg →
      (∀ g ∈ groups, group_iff key data maxn g) →
      outerLoop (keyEq key) maxn data beg e groups = (d2, gs2) →
      d2.length = maxn ∧ List.Perm d2 data ∧ chain_cover gs2 0 maxn ∧
      (∀ g ∈ gs2, group_iff key d2 maxn g) := by
  intro n
  induction n with
  | zero =>
    intro data beg e groups d2 gs2 hn hlen hbe hem hI3 hcc hI5 heq
    rw [outerLoop, dif_neg (by omega : ¬ e < maxn)] at heq
    injection heq with h1 h2
    subst h1
    subst h2
    have hemax : e = maxn := by omega
    subst hemax
    obtain ⟨hc, hi⟩ := outer_exit_case key data e groups beg hlen hbe hI3 hcc hI5
    exact ⟨hlen, List.Perm.refl _, hc, hi⟩
  | succ m ih =>
    intro data beg e groups d2 gs2 hn hlen hbe hem hI3 hcc hI5 heq
    rw [outerLoop] at heq
    by_cases he : e < maxn
    · rw [dif_pos he] at heq
      have helen : e < data.length := by omega
      have hblen : beg < data.length := by omega
      have hxe : data[e]? = some data[e] := List.getElem?_eq_getElem helen
      have hpv : data[beg]? = some data[beg] := List.getElem?_eq_getElem hblen
      rw [testEq_eq_of_some (keyEq key) data e beg data[e] data[beg] hxe hpv] at heq
      by_cases hteq : key data[e] = key data[beg]
      · rw [if_pos (by simp [keyEq, hteq])] at heq
        refine ih data beg (e + 1) groups d2 gs2 (by omega) hlen (by omega) (by omega)
          ?_ hcc hI5 heq
        intro k q hk1 hk2 hq
        rw [hpv] at hq
        cases hq
        by_cases hke : k = e
        · refine ⟨data[e], ?_, hteq⟩
          rw [hke]
          exact hxe
        · exact hI3 k data[beg] hk1 (by omega) hpv
      · rw [if_neg (by simp [keyEq, hteq])] at heq
        cases hr : probeLoop (keyEq key) maxn data beg e (e + 1) with
        | mk dP eP =>
          simp only [hr] at heq
          have hD0 : ∀ k, e ≤ k → k < e + 1 →
              ∃ x, data[k]? = some x ∧ key x ≠ key data[beg] := by
            intro k hk1 hk2
            have hke : k = e := by omega
            subst hke
            exact ⟨data[k], hxe, hteq⟩
          obtain ⟨r1, r2, r3, r4, r5, r6, r7, r8⟩ :=
            probeLoop_spec key maxn (maxn - (e + 1)) data beg e (e + 1) data[beg] dP eP
              (le_refl _) hlen hbe (by omega) (by omega) hpv
              (fun k hk1 hk2 => hI3 k data[beg] hk1 (by omega) hpv)
              hD0
              hr
          have hPbeg : dP[beg]? = some data[beg] := by
            rw [r4 beg (by omega)]
            exact hpv
          have hprev := prev_groups_mismatch key data maxn groups beg hlen (by omega)
            hcc hI5 data[beg] hpv
          have hI5P : ∀ g ∈ groups ++ [(beg, eP)], group_iff key dP maxn g := by
            intro g hg
            rcases List.mem_append.mp hg with hg1 | hg2
            · have hgb := chain_cover_mem_bounds groups 0 beg hcc g hg1
              have hiff := hI5 g hg1
              have hg1e : g.1 < e := by omega
              have hqg : dP[g.1]? = data[g.1]? := r4 g.1 (by omega)
              intro k q x hk hq hx
              rw [hqg] at hq
              by_cases hke : k < e
              · rw [r4 k hke] at hx
                exact hiff k q x hk hq hx
              · have hknot : ¬ (g.1 ≤ k ∧ k < g.2) := by omega
                have hxq : key x ≠ key q := by
                  by_cases hkeP : k < eP
                  · obtain ⟨x2, hx2, hkey2⟩ := r5 k (by omega) hkeP
                    rw [hx] at hx2
                    cases hx2
                    intro hcon
                    have hqbeg : key q ≠ key data[beg] := by
                      intro hqb
                      have := (hiff beg q data[beg] (by omega) hq hpv).mp hqb.symm
                      omega
                    exact hqbeg (by rw [← hcon]; exact hkey2)
                  · have hregion : ∀ k2 x2, e ≤ k2 → k2 < maxn → data[k2]? = some x2 →
                        key x2 ≠ key q := by
                      intro k2 x2 hk21 hk22 hx2 hcon
                      have := (hiff k2 q x2 hk22 hq hx2).mp hcon
                      omega
                    exact r8 (fun x2 => key x2 ≠ key q) hregion k x (by omega) hk hx
                exact iff_of_false hxq hknot
            · have hgeq : g = (beg, eP) := by simpa using hg2
              subst hgeq
              intro k q x hk hq hx
              rw [hPbeg] at hq
              cases hq
              constructor
              · intro hkey
                constructor
                · by_contra hkb
                  rw [r4 k (by omega)] at hx
                  exact hprev k x (by omega) hx hkey
                · by_contra hke2
                  obtain ⟨x2, hx2, hkey2⟩ := r6 k (by omega) hk
                  rw [hx] at hx2
                  cases hx2
                  exact hkey2 hkey
              · rintro ⟨hk1, hk2⟩
                obtain ⟨x2, hx2, hkey2⟩ := r5 k hk1 hk2
                rw [hx] at hx2
                cases hx2
                exact hkey2
          have hresP := ih dP eP (eP + 1) (groups ++ [(beg, eP)]) d2 gs2 (by omega) r1
            (by omega) (by omega) ?_ ?_ hI5P heq
          · exact ⟨hresP.1, hresP.2.1.trans r7, hresP.2.2.1, hresP.2.2.2⟩
          · intro k q hk1 hk2 hq
            have hke : k = eP := by omega
            subst hke
            exact ⟨q, hq, rfl⟩
          · exact chain_cover_append_one groups 0 beg eP hcc (by omega)
    · rw [dif_neg he] at heq
      injection heq with h1 h2
      subst h1
      subst h2
      have hemax : e = maxn := by omega
      subst hemax
      obtain ⟨hc, hi⟩ := outer_exit_case key data e groups beg hlen hbe hI3 hcc hI5
      exact ⟨hlen, List.Perm.refl _, hc, hi⟩

theorem group_segment_eq_filter {α κ : Type} [DecidableEq κ] (key : α → κ)
    (out : List α) (g : Nat × Nat) (q : α)
    (hq : out[g.1]? = some q)
    (hg12 : g.1 < g.2) (hg2 : g.2 ≤ out.length)
    (hiff : group_iff key out out.length g) :
    out.filter (fun x => decide (key x = key q)) = (out.drop g.1).take (g.2 - g.1) := by
  have hsplit : out = out.take g.1 ++ ((out.drop g.1).take (g.2 - g.1) ++
      (out.drop g.1).drop (g.2 - g.1)) := by
    rw [List.take_append_drop, List.take_append_drop]
  have hmatch : ∀ (i : Nat) (x : α), out[i]? = some x →
      (key x = key q ↔ (g.1 ≤ i ∧ i < g.2)) := by
    intro i x hx
    have hi : i < out.length := (List.getElem?_eq_some_iff.mp hx).1
    exact hiff i q x hi hq hx
  have h1 : (out.take g.1).filter (fun x => decide (key x = key q)) = [] := by
    rw [List.filter_eq_nil_iff]
    intro a ha
    obtain ⟨i, hi⟩ := List.mem_iff_getElem?.mp ha
    have hilt : i < g.1 := by
      by_contra hge
      rw [List.getElem?_eq_none (by simp; omega)] at hi
      exact Option.noConfusion hi
    rw [List.getElem?_take_of_lt hilt] at hi
    simp only [decide_eq_true_eq]
    intro hcon
    have := (hmatch i a hi).mp hcon
    omega
  have h2 : ((out.drop g.1).take (g.2 - g.1)).filter (fun x => decide (key x = key q)) =
      (out.drop g.1).take (g.2 - g.1) := by
    rw [List.filter_eq_self]
    intro a ha
    obtain ⟨i, hi⟩ := List.mem_iff_getElem?.mp ha
    have hilt : i < g.2 - g.1 := by
      by_contra hge
      rw [List.getElem?_eq_none (by simp; omega)] at hi
      exact Option.noConfusion hi
    rw [List.getElem?_take_of_lt hilt, List.getElem?_drop] at hi
    simp only [decide_eq_true_eq]
    exact (hmatch (g.1 + i) a hi).mpr ⟨by omega, by omega⟩
  have h3 : ((out.drop g.1).drop (g.2 - g.1)).filter (fun x => decide (key x = key q)) =
      [] := by
    rw [List.filter_eq_nil_iff]
    intro a ha
    obtain ⟨i, hi⟩ := List.mem_iff_getElem?.mp ha
    rw [List.getElem?_drop, List.getElem?_drop] at hi
    simp only [decide_eq_true_eq]
    intro hcon
    have := (hmatch (g.1 + (g.2 - g.1 + i)) a hi).mp hcon
    omega
  conv_lhs => rw [hsplit]
  rw [List.filter_append, List.filter_append, h1, h2, h3]
  simp

/-- C3, amended.  For every nonempty input buffer, `group_by_addr`
partitions it into contiguous groups of equal source address:  the buffer
stays a permutation of the input, the produced ranges form a gapless chain
covering the whole buffer, every produced range holds exactly the packets
sharing one source address (each such segment is a permutation of the
input's packets with that address) — but NOT stably: the relative input
order inside a group may change. -/
theorem C3_group_by_addr_amended {α κ : Type} [DecidableEq κ] (key : α → κ) (l : List α)
    (out : List α) (gs : List (Nat × Nat)) (hne : l ≠ [])
    (heq : group_by_addr key l = (out, gs)) :
    out.length = l.length ∧ List.Perm out l ∧ chain_cover gs 0 l.length ∧
    (∀ g ∈ gs, group_iff key out l.length g) ∧
    (∀ g ∈ gs, ∀ q, out[g.1]? = some q →
      List.Perm ((out.drop g.1).take (g.2 - g.1))
        (l.filter (fun x => decide (key x = key q)))) := by
  have hlp : 0 < l.length := List.length_pos.mpr hne
  unfold group_by_addr group_by_inner at heq
  have hI3 : ∀ (k : Nat) (q : α), 0 ≤ k → k < 1 → l[0]? = some q →
      ∃ x, l[k]? = some x ∧ key x = key q := by
    intro k q hk1 hk2 hq
    have hk0 : k = 0 := by omega
    subst hk0
    exact ⟨q, hq, rfl⟩
  obtain ⟨r1, r2, r3, r4⟩ := outerLoop_spec key l.length (l.length - 1) l 0 1 [] out gs
    (by omega) rfl (by omega) (by omega)
    hI3 rfl (by intro g hg; simp at hg) heq
  refine ⟨r1, r2, r3, r4, ?_⟩
  intro g hg q hq
  have hb := chain_cover_mem_bounds gs 0 l.length r3 g hg
  have hiffg := r4 g hg
  rw [← r1] at hiffg
  have hseg := group_segment_eq_filter key out g q hq (by omega) (by omega) hiffg
  rw [← hseg]
  exact List.Perm.filter _ r2

/-- C3, counterexample.  Packets are (addr, id) pairs; the input has
addresses [0,1,1,0,1].  The swap at probe=3 throws packet (1,1) behind
packet (1,2), so the second produced group (range 2..5) holds the address-1
packets as [(1,2),(1,1),(1,4)] while their input order is
[(1,1),(1,2),(1,4)]: the relative order within a group is NOT preserved, so
the partition is not stable. -/
theorem C3_counterexample :
    group_by_addr Prod.fst ([(0,0),(1,1),(1,2),(0,3),(1,4)] : List (Nat × Nat)) =
      ([(0,0),(0,3),(1,2),(1,1),(1,4)], [(0,2),(2,5)]) ∧
    ((([(0,0),(0,3),(1,2),(1,1),(1,4)] : List (Nat × Nat)).drop 2).take 3 =
      [(1,2),(1,1),(1,4)]) ∧
    ([(0,0),(1,1),(1,2),(0,3),(1,4)] : List (Nat × Nat)).filter
      (fun x => decide (x.1 = 1)) = [(1,1),(1,2),(1,4)] ∧
    ([(1,2),(1,1),(1,4)] : List (Nat × Nat)) ≠ [(1,1),(1,2),(1,4)] := by
  refine ⟨?_, by decide, by decide, by decide⟩
  simp [group_by_addr, group_by_inner, outerLoop, probeLoop, testEq, listSwap, keyEq]

/-- Witness for `C3_group_by_addr_amended` on the counterexample input. -/
theorem C3_group_by_addr_amended_witness :
    List.Perm ([(0,0),(0,3),(1,2),(1,1),(1,4)] : List (Nat × Nat))
      [(0,0),(1,1),(1,2),(0,3),(1,4)] ∧
    chain_cover [(0,2),(2,5)] 0 5 := by
  have h := C3_group_by_addr_amended Prod.fst
    ([(0,0),(1,1),(1,2),(0,3),(1,4)] : List (Nat × Nat))
    [(0,0),(0,3),(1,2),(1,1),(1,4)] [(0,2),(2,5)] (by decide)
    (by simp [group_by_addr, group_by_inner, outerLoop, probeLoop, testEq, listSwap, keyEq])
  exact ⟨h.2.1, h.2.2.1⟩
